import Mathlib

/-!
Verification of the circular doubly-linked intrusive queue (queue.c).

The heap of list nodes is shallowly embedded as total functions from
addresses (natural numbers) to the two link fields and the stored string.
The NULL pointer is address 0.  Strings are byte lists (the bytes before
the terminating 0, which a C string cannot contain).  Every operation of
queue.c is translated into a function on this heap; loops take an explicit
fuel argument and the theorems show the result is independent of the fuel
once it is at least the size of the structure being traversed.

The ring invariant isRing h s l states that starting from the sentinel s
the ring visits exactly the element addresses l and that every next/prev
pointer pair along the cycle is consistent.
-/

/-- Heap of intrusive list nodes: next and prev link fields and the owned
string payload, indexed by address.  Address 0 plays the role of NULL. -/
structure Heap where
  next : Nat → Nat
  prev : Nat → Nat
  val : Nat → List Nat

/-- Write the next field of address a. -/
def setN (h : Heap) (a v : Nat) : Heap :=
  { h with next := fun x => if x = a then v else h.next x }

/-- Write the prev field of address a. -/
def setP (h : Heap) (a v : Nat) : Heap :=
  { h with prev := fun x => if x = a then v else h.prev x }

/-- Write the string payload of address a. -/
def setV (h : Heap) (a : Nat) (v : List Nat) : Heap :=
  { h with val := fun x => if x = a then v else h.val x }

@[simp] theorem setN_next (h : Heap) (a v x : Nat) :
    (setN h a v).next x = if x = a then v else h.next x := rfl

@[simp] theorem setN_prev (h : Heap) (a v : Nat) : (setN h a v).prev = h.prev := rfl

@[simp] theorem setN_val (h : Heap) (a v : Nat) : (setN h a v).val = h.val := rfl

@[simp] theorem setP_prev (h : Heap) (a v x : Nat) :
    (setP h a v).prev x = if x = a then v else h.prev x := rfl

@[simp] theorem setP_next (h : Heap) (a v : Nat) : (setP h a v).next = h.next := rfl

@[simp] theorem setP_val (h : Heap) (a v : Nat) : (setP h a v).val = h.val := rfl

@[simp] theorem setV_val (h : Heap) (a : Nat) (v : List Nat) (x : Nat) :
    (setV h a v).val x = if x = a then v else h.val x := rfl

@[simp] theorem setV_next (h : Heap) (a : Nat) (v : List Nat) : (setV h a v).next = h.next := rfl

@[simp] theorem setV_prev (h : Heap) (a : Nat) (v : List Nat) : (setV h a v).prev = h.prev := rfl

/-- Modelled from the spec: the node-linkage primitive init_empty of the
repository's list header (not under src/), which makes a node a self-loop. -/
def INIT_LIST_HEAD (h : Heap) (a : Nat) : Heap :=
  setP (setN h a a) a a

/-- Modelled from the spec: link_after of the node-linkage component; splices
node immediately after head, updating both pointer pairs on both sides. -/
def list_add (h : Heap) (node head : Nat) : Heap :=
  let nxt := h.next head
  setN (setP (setN (setP h nxt node) node nxt) node head) head node

/-- Modelled from the spec: link_before of the node-linkage component; splices
node immediately before head, i.e. at the tail when head is the sentinel. -/
def list_add_tail (h : Heap) (node head : Nat) : Heap :=
  let prv := h.prev head
  setP (setP (setN (setN h prv node) node head) node prv) head node

/-- Modelled from the spec: unlink of the node-linkage component; relinks the
neighbors of node to each other and leaves node's own pointers untouched. -/
def list_del (h : Heap) (node : Nat) : Heap :=
  let nxt := h.next node
  let prv := h.prev node
  setN (setP h nxt prv) prv nxt

/-- Modelled from the spec: the safe unlink variant that additionally resets
the removed node to a self-loop. -/
def list_del_init (h : Heap) (node : Nat) : Heap :=
  INIT_LIST_HEAD (list_del h node) node

/-- Modelled from the spec: move_to_front, i.e. unlink then link_after head. -/
def list_move (h : Heap) (node head : Nat) : Heap :=
  list_add (list_del h node) node head

/-- Modelled from the spec: the O(1) emptiness check on the sentinel. -/
def list_empty (h : Heap) (head : Nat) : Bool :=
  h.next head == head

/-- Modelled from the spec: the O(1) singularity check on the sentinel. -/
def list_is_singular (h : Heap) (head : Nat) : Bool :=
  !list_empty h head && (h.prev head == h.next head)

/-- Byte-wise C string comparison on the byte lists before the terminator;
the sign of the result is the sign of the difference at the first mismatch,
the implicit terminator comparing as byte 0. -/
def strcmp : List Nat → List Nat → Int
  | [], [] => 0
  | [], b :: _ => 0 - (b : Int)
  | a :: _, [] => (a : Int)
  | a :: as, b :: bs => if a = b then strcmp as bs else (a : Int) - (b : Int)

/-- Null-free byte string: a C string cannot contain the byte 0. -/
def NFStr (v : List Nat) : Prop := ∀ b ∈ v, 0 < b

instance (v : List Nat) : Decidable (NFStr v) := by
  unfold NFStr; infer_instance

/-- Adjacent consistency of the doubly-linked chain in heap h. -/
def ringRel (h : Heap) (a b : Nat) : Prop := h.next a = b ∧ h.prev b = a

instance (h : Heap) (a b : Nat) : Decidable (ringRel h a b) := by
  unfold ringRel; infer_instance

/-- Doubly linked segment: starting at anchor a, the next pointers visit the
addresses of u in order and then reach b, and each prev pointer along the way
points back at the predecessor. -/
def seg (h : Heap) : Nat → List Nat → Nat → Prop
  | a, [], b => ringRel h a b
  | a, x :: u, b => ringRel h a x ∧ seg h x u b

instance segDec (h : Heap) : (a : Nat) → (u : List Nat) → (b : Nat) → Decidable (seg h a u b)
  | a, [], b => inferInstanceAs (Decidable (ringRel h a b))
  | a, x :: u, b =>
    @instDecidableAnd _ _ (inferInstanceAs (Decidable (ringRel h a x))) (segDec h x u b)

/-- Ring invariant: starting from the sentinel s the ring visits exactly the
element addresses l (in traversal order) and comes back to s, every adjacent
next/prev pointer pair along the cycle is consistent, all addresses are
distinct and none of them is NULL. -/
def isRing (h : Heap) (s : Nat) (l : List Nat) : Prop :=
  (s :: l).Nodup ∧ 0 ∉ s :: l ∧ seg h s l s

instance (h : Heap) (s : Nat) (l : List Nat) : Decidable (isRing h s l) := by
  unfold isRing; infer_instance

theorem isRing_nodup {h : Heap} {s : Nat} {l : List Nat} (hr : isRing h s l) :
    (s :: l).Nodup := hr.1

theorem isRing_nonnull {h : Heap} {s : Nat} {l : List Nat} (hr : isRing h s l) :
    0 ∉ s :: l := hr.2.1

theorem isRing_seg {h : Heap} {s : Nat} {l : List Nat} (hr : isRing h s l) :
    seg h s l s := hr.2.2

@[simp] theorem seg_nil (h : Heap) (a b : Nat) : seg h a [] b ↔ ringRel h a b := Iff.rfl

@[simp] theorem seg_cons (h : Heap) (a x b : Nat) (u : List Nat) :
    seg h a (x :: u) b ↔ ringRel h a x ∧ seg h x u b := Iff.rfl

/-- Splitting a segment at an interior element. -/
theorem seg_append (h : Heap) (b : Nat) :
    ∀ (u : List Nat) (a x : Nat) (v : List Nat),
      seg h a (u ++ x :: v) b ↔ seg h a u x ∧ seg h x v b := by
  intro u
  induction u with
  | nil => intro a x v; simp
  | cons y u ih =>
      intro a x v
      simp only [List.cons_append, seg_cons, ih, and_assoc]

/-- A segment only reads the next fields of its anchor and interior elements
and the prev fields of its interior elements and final target; heaps agreeing
there carry the same segment. -/
theorem seg_congr {h h' : Heap} :
    ∀ {u : List Nat} {a b : Nat},
      (∀ y ∈ a :: u, h'.next y = h.next y) → (∀ y ∈ u ++ [b], h'.prev y = h.prev y) →
      seg h a u b → seg h' a u b := by
  intro u
  induction u with
  | nil =>
      intro a b hn hp hs
      exact ⟨(hn a (by simp)).trans hs.1, (hp b (by simp)).trans hs.2⟩
  | cons x u ih =>
      intro a b hn hp hs
      refine ⟨⟨(hn a (by simp)).trans hs.1.1, (hp x (by simp)).trans hs.1.2⟩, ?_⟩
      exact ih (fun y hy => hn y (by simpa using Or.inr (by simpa using hy)))
        (fun y hy => hp y (by simp at hy ⊢; tauto)) hs.2

/-- The prev field of the final target of a segment points at the last node,
and the next field of the last node points at the final target. -/
theorem seg_last {h : Heap} :
    ∀ {u : List Nat} {a b : Nat}, seg h a u b →
      h.prev b = (a :: u).getLast (by simp) ∧ h.next ((a :: u).getLast (by simp)) = b := by
  intro u
  induction u with
  | nil => intro a b hs; exact ⟨by simpa using hs.2, by simpa using hs.1⟩
  | cons x u ih =>
      intro a b hs
      have h2 := ih hs.2
      simpa [List.getLast_cons] using h2

/-- Redirecting the final target of a segment: if the heap changes only the
next field of the segment's last node (to n) and the prev field of n (to that
last node), the segment now ends at n. -/
theorem seg_retarget {h h' : Heap} (n : Nat) :
    ∀ {u : List Nat} {a c : Nat}, seg h a u c →
      (a :: u).Nodup →
      h'.next ((a :: u).getLast (by simp)) = n →
      h'.prev n = (a :: u).getLast (by simp) →
      (∀ y ∈ a :: u, y ≠ (a :: u).getLast (by simp) → h'.next y = h.next y) →
      (∀ y ∈ u, h'.prev y = h.prev y) →
      seg h' a u n := by
  intro u
  induction u with
  | nil =>
      intro a c _ _ hn hp _ _
      exact ⟨by simpa using hn, by simpa using hp⟩
  | cons x u ih =>
      intro a c hs hnd hn hp hframe hpframe
      have ha : a ∉ x :: u := (List.nodup_cons.1 hnd).1
      have hlast : (a :: x :: u).getLast (by simp) = (x :: u).getLast (by simp) :=
        List.getLast_cons (by simp)
      have hax : a ≠ (x :: u).getLast (by simp) := by
        intro hcontra
        exact ha (hcontra ▸ List.getLast_mem (by simp))
      refine ⟨⟨?_, ?_⟩, ?_⟩
      · rw [hframe a (by simp) (by rw [hlast]; exact hax)]; exact hs.1.1
      · rw [hpframe x (by simp)]; exact hs.1.2
      · refine ih hs.2 (List.nodup_cons.1 hnd).2 ?_ ?_ ?_ ?_
        · rw [← hlast]; exact hn
        · rw [← hlast]; exact hp
        · intro y hy hne
          exact hframe y (by simpa using Or.inr (by simpa using hy)) (by rw [hlast]; exact hne)
        · intro y hy; exact hpframe y (by simp [hy])

/-- Every node of a segment (anchor and interior) has a consistent successor:
prev of its next points back at it. -/
theorem seg_next_prev {h : Heap} :
    ∀ {u : List Nat} {a b : Nat}, seg h a u b → ∀ x ∈ a :: u, h.prev (h.next x) = x := by
  intro u
  induction u with
  | nil => intro a b hs x hx; simp at hx; subst hx; rw [hs.1]; exact hs.2
  | cons y u ih =>
      intro a b hs x hx
      rcases List.mem_cons.1 hx with hx | hx
      · subst hx; rw [hs.1.1]; exact hs.1.2
      · exact ih hs.2 x hx

/-- Every interior node and the final target of a segment has a consistent
predecessor: next of its prev points back at it. -/
theorem seg_prev_next {h : Heap} :
    ∀ {u : List Nat} {a b : Nat}, seg h a u b → ∀ x ∈ u ++ [b], h.next (h.prev x) = x := by
  intro u
  induction u with
  | nil => intro a b hs x hx; simp at hx; subst hx; rw [hs.2]; exact hs.1
  | cons y u ih =>
      intro a b hs x hx
      rcases List.mem_cons.1 hx with hx | hx
      · subst hx; rw [hs.1.2]; exact hs.1.1
      · exact ih hs.2 x hx

theorem list_add_next (h : Heap) (n hd y : Nat) :
    (list_add h n hd).next y = if y = hd then n else if y = n then h.next hd else h.next y := rfl

theorem list_add_prev (h : Heap) (n hd y : Nat) :
    (list_add h n hd).prev y =
      if y = n then hd else if y = h.next hd then n else h.prev y := rfl

theorem list_add_val (h : Heap) (n hd : Nat) : (list_add h n hd).val = h.val := rfl

theorem list_add_tail_next (h : Heap) (n hd y : Nat) :
    (list_add_tail h n hd).next y =
      if y = n then hd else if y = h.prev hd then n else h.next y := rfl

theorem list_add_tail_prev (h : Heap) (n hd y : Nat) :
    (list_add_tail h n hd).prev y =
      if y = hd then n else if y = n then h.prev hd else h.prev y := rfl

theorem list_add_tail_val (h : Heap) (n hd : Nat) : (list_add_tail h n hd).val = h.val := rfl

theorem list_del_next (h : Heap) (x y : Nat) :
    (list_del h x).next y = if y = h.prev x then h.next x else h.next y := rfl

theorem list_del_prev (h : Heap) (x y : Nat) :
    (list_del h x).prev y = if y = h.next x then h.prev x else h.prev y := rfl

theorem list_del_val (h : Heap) (x : Nat) : (list_del h x).val = h.val := rfl

theorem list_del_init_next (h : Heap) (x y : Nat) :
    (list_del_init h x).next y = if y = x then x else (list_del h x).next y := rfl

theorem list_del_init_prev (h : Heap) (x y : Nat) :
    (list_del_init h x).prev y = if y = x then x else (list_del h x).prev y := rfl

theorem list_del_init_val (h : Heap) (x : Nat) : (list_del_init h x).val = h.val := rfl

/-- Membership and distinctness facts extracted from the nodup hypothesis of a
ring decomposed around a middle element. -/
theorem nodup_mid {s x : Nat} {l1 l2 : List Nat} (hnd : (s :: (l1 ++ x :: l2)).Nodup) :
    x ≠ s ∧ s ∉ l1 ∧ s ∉ l2 ∧ x ∉ l1 ∧ x ∉ l2 ∧ (s :: l1).Nodup ∧ l2.Nodup ∧
      (s :: (l1 ++ l2)).Nodup ∧ ∀ y ∈ l1, y ∉ l2 := by
  rcases List.nodup_cons.1 hnd with ⟨hs, htail⟩
  have hmid := List.nodup_middle.1 htail
  rcases List.nodup_cons.1 hmid with ⟨hx, happ⟩
  simp only [List.mem_append, List.mem_cons] at hs hx
  push_neg at hs hx
  rcases List.nodup_append.1 happ with ⟨h1, h2, hdisj⟩
  refine ⟨fun hc => hs.2.1 hc.symm, hs.1, hs.2.2, hx.1, hx.2, ?_, h2, ?_, ?_⟩
  · exact List.nodup_cons.2 ⟨hs.1, h1⟩
  · exact List.nodup_cons.2 ⟨by simp [hs.1, hs.2.2], happ⟩
  · intro y hy hy2; exact hdisj hy hy2

/-- A heap that agrees with h on the next and prev fields of all ring members
carries the same ring. -/
theorem ring_congr {h h' : Heap} {s : Nat} {l : List Nat}
    (hn : ∀ y ∈ s :: l, h'.next y = h.next y)
    (hp : ∀ y ∈ s :: l, h'.prev y = h.prev y)
    (hr : isRing h s l) : isRing h' s l := by
  refine ⟨hr.1, hr.2.1, seg_congr hn ?_ hr.2.2⟩
  intro y hy
  apply hp
  simp only [List.mem_append, List.mem_cons, List.mem_singleton] at hy ⊢
  tauto

theorem ring_prev_sentinel {h : Heap} {s : Nat} {l : List Nat} (hr : isRing h s l) :
    h.prev s = (s :: l).getLast (by simp) := (seg_last hr.2.2).1

theorem ring_next_sentinel_nil {h : Heap} {s : Nat} (hr : isRing h s []) :
    h.next s = s := hr.2.2.1

theorem ring_next_sentinel_cons {h : Heap} {s x : Nat} {t : List Nat}
    (hr : isRing h s (x :: t)) : h.next s = x ∧ h.prev x = s := hr.2.2.1

/-- Emptiness is exactly the self-loop of the sentinel. -/
theorem ring_empty_iff {h : Heap} {s : Nat} {l : List Nat} (hr : isRing h s l) :
    h.next s = s ↔ l = [] := by
  constructor
  · intro hss
    cases l with
    | nil => rfl
    | cons x t =>
        exfalso
        have hx := (ring_next_sentinel_cons hr).1
        have hxs : x = s := by rw [← hx, hss]
        have hnd := hr.1
        rw [hxs] at hnd
        simp at hnd
  · intro hl; subst hl; exact ring_next_sentinel_nil hr

/-- Linking a fresh node right after the sentinel inserts it at the front of
the ring. -/
theorem ring_insert_front {h : Heap} {s n : Nat} {l : List Nat}
    (hr : isRing h s l) (hn : n ∉ s :: l) (h0 : n ≠ 0) :
    isRing (list_add h n s) s (n :: l) := by
  obtain ⟨hnd, hnull, hseg⟩ := hr
  have hns : n ≠ s := fun hc => hn (by simp [hc])
  have hnl : n ∉ l := fun hc => hn (by simp [hc])
  have hsl : s ∉ l := (List.nodup_cons.1 hnd).1
  refine ⟨?_, ?_, ?_⟩
  · refine List.nodup_cons.2 ⟨?_, List.nodup_cons.2 ⟨hnl, (List.nodup_cons.1 hnd).2⟩⟩
    simp only [List.mem_cons]
    push_neg
    exact ⟨fun hc => hns hc.symm, hsl⟩
  · simp only [List.mem_cons] at hnull ⊢
    push_neg at hnull ⊢
    exact ⟨hnull.1, fun hc => h0 hc.symm, hnull.2⟩
  · refine ⟨⟨by simp [list_add_next], by simp [list_add_prev]⟩, ?_⟩
    cases l with
    | nil =>
        obtain ⟨hx1, _⟩ := hseg
        refine ⟨?_, ?_⟩
        · rw [list_add_next, if_neg hns, if_pos rfl]; exact hx1
        · rw [list_add_prev, if_neg (fun hc : s = n => hns hc.symm), hx1, if_pos rfl]
    | cons x t =>
        obtain ⟨⟨hx1, _⟩, hrest⟩ := hseg
        have hxt : x ∉ t := (List.nodup_cons.1 (List.nodup_cons.1 hnd).2).1
        have hxs : x ≠ s := fun hc => hsl (by simp [hc])
        have hnx : n ≠ x := fun hc => hnl (by simp [hc])
        refine ⟨⟨?_, ?_⟩, ?_⟩
        · rw [list_add_next, if_neg hns, if_pos rfl]; exact hx1
        · rw [list_add_prev, if_neg (fun hc : x = n => hnx hc.symm), hx1, if_pos rfl]
        · refine seg_congr ?_ ?_ hrest
          · intro y hy
            have hys : y ≠ s := fun hc => hsl (hc ▸ hy)
            have hyn : y ≠ n := fun hc => hnl (hc ▸ hy)
            rw [list_add_next, if_neg hys, if_neg hyn]
          · intro y hy
            have hyn : y ≠ n := by
              intro hc; subst hc
              simp only [List.mem_append, List.mem_singleton] at hy
              rcases hy with hy | hy
              · exact hnl (by simp [hy])
              · exact hns hy
            have hyx : y ≠ x := by
              intro hc; subst hc
              simp only [List.mem_append, List.mem_singleton] at hy
              rcases hy with hy | hy
              · exact hxt hy
              · exact hxs hy
            rw [list_add_prev, if_neg hyn, hx1, if_neg hyx]

/-- Inserting a fresh element into the middle of a nodup list keeps it nodup. -/
theorem nodup_insert_mid {s n : Nat} {u v : List Nat} (hnd : (s :: (u ++ v)).Nodup)
    (hn : n ∉ s :: (u ++ v)) : (s :: (u ++ n :: v)).Nodup := by
  have hperm : List.Perm (s :: (u ++ n :: v)) (n :: (s :: (u ++ v))) :=
    List.Perm.trans (List.Perm.cons s List.perm_middle) (List.Perm.swap n s _)
  exact hperm.nodup_iff.2 (List.nodup_cons.2 ⟨hn, hnd⟩)

theorem nonnull_insert_mid {s n : Nat} {u v : List Nat} (hnull : 0 ∉ s :: (u ++ v))
    (h0 : n ≠ 0) : 0 ∉ s :: (u ++ n :: v) := by
  simp only [List.mem_cons, List.mem_append] at hnull ⊢
  push_neg at hnull ⊢
  exact ⟨hnull.1, hnull.2.1, fun hc => h0 hc.symm, hnull.2.2⟩

/-- Linking a fresh node right after an arbitrary ring element splices it into
the traversal immediately after that element. -/
theorem ring_insert_after {h : Heap} {s a n : Nat} {l1 l2 : List Nat}
    (hr : isRing h s (l1 ++ a :: l2)) (hn : n ∉ s :: (l1 ++ a :: l2)) (h0 : n ≠ 0) :
    isRing (list_add h n a) s (l1 ++ a :: n :: l2) := by
  obtain ⟨hnd, hnull, hseg⟩ := hr
  obtain ⟨has, hsl1, hsl2, hal1, hal2, _, hndl2, _, hdisj⟩ := nodup_mid hnd
  obtain ⟨hs1, hs2⟩ := (seg_append h s l1 s a l2).1 hseg
  have hnmem : n ≠ s ∧ n ∉ l1 ∧ n ≠ a ∧ n ∉ l2 := by
    simp only [List.mem_cons, List.mem_append] at hn
    push_neg at hn
    exact ⟨hn.1, hn.2.1, hn.2.2.1, hn.2.2.2⟩
  obtain ⟨hns, hnl1, hna, hnl2⟩ := hnmem
  refine ⟨?_, ?_, ?_⟩
  · have h2 : (s :: ((l1 ++ [a]) ++ n :: l2)).Nodup :=
      nodup_insert_mid (by simpa using hnd) (by simpa using hn)
    simpa using h2
  · have h2 : 0 ∉ s :: ((l1 ++ [a]) ++ n :: l2) :=
      nonnull_insert_mid (by simpa using hnull) h0
    simpa using h2
  · have hframe1 : ∀ y ∈ s :: l1, (list_add h n a).next y = h.next y := by
      intro y hy
      have hya : y ≠ a := by
        intro hc; rw [hc] at hy
        rcases List.mem_cons.1 hy with h1 | h1
        · exact has h1
        · exact hal1 h1
      have hyn : y ≠ n := by
        intro hc; rw [hc] at hy
        rcases List.mem_cons.1 hy with h1 | h1
        · exact hns h1
        · exact hnl1 h1
      rw [list_add_next, if_neg hya, if_neg hyn]
    cases l2 with
    | nil =>
        have hnx : h.next a = s := hs2.1
        have hframe2 : ∀ y ∈ l1 ++ [a], (list_add h n a).prev y = h.prev y := by
          intro y hy
          simp only [List.mem_append, List.mem_singleton] at hy
          have hyn : y ≠ n := by
            intro hc; rw [hc] at hy
            rcases hy with h1 | h1
            · exact hnl1 h1
            · exact hna h1
          have hys : y ≠ s := by
            intro hc; rw [hc] at hy
            rcases hy with h1 | h1
            · exact hsl1 h1
            · exact has h1.symm
          rw [list_add_prev, if_neg hyn, hnx, if_neg hys]
        have hpiece1 : seg (list_add h n a) s l1 a := seg_congr hframe1 hframe2 hs1
        rw [show l1 ++ a :: n :: ([] : List Nat) = l1 ++ a :: [n] from rfl, seg_append]
        refine ⟨hpiece1, ⟨?_, ?_⟩, ?_, ?_⟩
        · rw [list_add_next, if_pos rfl]
        · rw [list_add_prev, if_pos rfl]
        · rw [list_add_next, if_neg hna, if_pos rfl]; exact hnx
        · rw [list_add_prev, if_neg (fun hc : s = n => hns hc.symm), hnx, if_pos rfl]
    | cons x t =>
        obtain ⟨⟨hax1, hax2⟩, hrest⟩ := hs2
        have hxl2 : x ∈ x :: t := List.mem_cons_self x t
        have hframe2 : ∀ y ∈ l1 ++ [a], (list_add h n a).prev y = h.prev y := by
          intro y hy
          simp only [List.mem_append, List.mem_singleton] at hy
          have hyn : y ≠ n := by
            intro hc; rw [hc] at hy
            rcases hy with h1 | h1
            · exact hnl1 h1
            · exact hna h1
          have hyx : y ≠ x := by
            intro hc; rw [hc] at hy
            rcases hy with h1 | h1
            · exact hdisj x h1 hxl2
            · exact hal2 (List.mem_cons.2 (Or.inl h1.symm))
          rw [list_add_prev, if_neg hyn, hax1, if_neg hyx]
        have hpiece1 : seg (list_add h n a) s l1 a := seg_congr hframe1 hframe2 hs1
        have hxn : x ≠ n := fun hc => hnl2 (by rw [← hc]; exact hxl2)
        rw [seg_append]
        refine ⟨hpiece1, ⟨?_, ?_⟩, ⟨?_, ?_⟩, ?_⟩
        · rw [list_add_next, if_pos rfl]
        · rw [list_add_prev, if_pos rfl]
        · rw [list_add_next, if_neg hna, if_pos rfl]; exact hax1
        · rw [list_add_prev, if_neg hxn, hax1, if_pos rfl]
        · refine seg_congr ?_ ?_ hrest
          · intro y hy
            have hya : y ≠ a := by
              intro hc; rw [hc] at hy; exact hal2 hy
            have hyn : y ≠ n := by
              intro hc; rw [hc] at hy; exact hnl2 hy
            rw [list_add_next, if_neg hya, if_neg hyn]
          · intro y hy
            simp only [List.mem_append, List.mem_singleton] at hy
            have hyn : y ≠ n := by
              intro hc; rw [hc] at hy
              rcases hy with h1 | h1
              · exact hnl2 (List.mem_cons_of_mem x h1)
              · exact hns h1
            have hyx : y ≠ x := by
              intro hc; rw [hc] at hy
              rcases hy with h1 | h1
              · exact (List.nodup_cons.1 hndl2).1 h1
              · exact hsl2 (List.mem_cons.2 (Or.inl h1.symm))
            rw [list_add_prev, if_neg hyn, hax1, if_neg hyx]

/-- Linking a fresh node right before the sentinel appends it at the tail of
the ring. -/
theorem ring_insert_back {h : Heap} {s n : Nat} {l : List Nat}
    (hr : isRing h s l) (hn : n ∉ s :: l) (h0 : n ≠ 0) :
    isRing (list_add_tail h n s) s (l ++ [n]) := by
  obtain ⟨hnd, hnull, hseg⟩ := hr
  have hns : n ≠ s := fun hc => hn (by simp [hc])
  have hnl : n ∉ l := fun hc => hn (by simp [hc])
  have hsl : s ∉ l := (List.nodup_cons.1 hnd).1
  have hprev : h.prev s = (s :: l).getLast (by simp) := (seg_last hseg).1
  have hgmem : (s :: l).getLast (by simp) ∈ s :: l := List.getLast_mem _
  have hgn : (s :: l).getLast (by simp) ≠ n := by
    intro hc; rw [hc] at hgmem; exact hn hgmem
  refine ⟨?_, ?_, ?_⟩
  · have h2 : (s :: (l ++ n :: [])).Nodup :=
      nodup_insert_mid (by simpa using hnd) (by simpa using hn)
    simpa using h2
  · have h2 : 0 ∉ s :: (l ++ n :: []) :=
      nonnull_insert_mid (by simpa using hnull) h0
    simpa using h2
  · rw [show l ++ [n] = l ++ n :: [] from rfl, seg_append]
    refine ⟨?_, ?_, ?_⟩
    · refine seg_retarget n hseg hnd ?_ ?_ ?_ ?_
      · rw [list_add_tail_next, if_neg hgn, ← hprev, if_pos rfl]
      · rw [list_add_tail_prev, if_neg hns, if_pos rfl]; exact hprev
      · intro y hy hne
        have hyn : y ≠ n := fun hc => hn (by rw [← hc]; exact hy)
        have hyp : y ≠ h.prev s := by rw [hprev]; exact hne
        rw [list_add_tail_next, if_neg hyn, if_neg hyp]
      · intro y hy
        have hys : y ≠ s := fun hc => hsl (by rw [← hc]; exact hy)
        have hyn : y ≠ n := fun hc => hnl (by rw [← hc]; exact hy)
        rw [list_add_tail_prev, if_neg hys, if_neg hyn]
    · rw [list_add_tail_next, if_pos rfl]
    · rw [list_add_tail_prev, if_pos rfl]

/-- Unlinking a ring element removes exactly that element from the traversal
order and leaves the rest of the ring intact. -/
theorem ring_delete {h : Heap} {s x : Nat} {l1 l2 : List Nat}
    (hr : isRing h s (l1 ++ x :: l2)) :
    isRing (list_del h x) s (l1 ++ l2) := by
  obtain ⟨hnd, hnull, hseg⟩ := hr
  obtain ⟨hxs, hsl1, hsl2, hxl1, hxl2, hndsl1, hndl2, hndrest, hdisj⟩ := nodup_mid hnd
  obtain ⟨hs1, hs2⟩ := (seg_append h s l1 s x l2).1 hseg
  have hpx : h.prev x = (s :: l1).getLast (by simp) := (seg_last hs1).1
  have hgmem : (s :: l1).getLast (by simp) ∈ s :: l1 := List.getLast_mem _
  refine ⟨hndrest, ?_, ?_⟩
  · intro hc
    apply hnull
    simp only [List.mem_cons, List.mem_append] at hc ⊢
    tauto
  · cases l2 with
    | nil =>
        have hnx : h.next x = s := hs2.1
        rw [List.append_nil]
        refine seg_retarget s hs1 hndsl1 ?_ ?_ ?_ ?_
        · rw [list_del_next, hpx, if_pos rfl]; exact hnx
        · rw [list_del_prev, hnx, if_pos rfl]; exact hpx
        · intro y _ hne
          rw [list_del_next, hpx, if_neg hne]
        · intro y hy
          have hys : y ≠ s := fun hc => hsl1 (by rw [← hc]; exact hy)
          rw [list_del_prev, hnx, if_neg hys]
    | cons z t =>
        obtain ⟨⟨hxz1, _⟩, hrest⟩ := hs2
        rw [seg_append]
        constructor
        · refine seg_retarget z hs1 hndsl1 ?_ ?_ ?_ ?_
          · rw [list_del_next, hpx, if_pos rfl]; exact hxz1
          · rw [list_del_prev, hxz1, if_pos rfl]; exact hpx
          · intro y _ hne
            rw [list_del_next, hpx, if_neg hne]
          · intro y hy
            have hyz : y ≠ z :=
              fun hc => hdisj y hy (by rw [hc]; exact List.mem_cons_self z t)
            rw [list_del_prev, hxz1, if_neg hyz]
        · refine seg_congr ?_ ?_ hrest
          · intro y hy
            have hyg : y ≠ (s :: l1).getLast (by simp) := by
              intro hc; rw [hc] at hy
              rcases List.mem_cons.1 hgmem with h1 | h1
              · rw [h1] at hy; exact hsl2 hy
              · exact hdisj _ h1 hy
            rw [list_del_next, hpx, if_neg hyg]
          · intro y hy
            simp only [List.mem_append, List.mem_singleton] at hy
            have hyz : y ≠ z := by
              intro hc; rw [hc] at hy
              rcases hy with h1 | h1
              · exact (List.nodup_cons.1 hndl2).1 h1
              · exact hsl2 (List.mem_cons.2 (Or.inl h1.symm))
            rw [list_del_prev, hxz1, if_neg hyz]

/-- The safe unlink removes the element from the ring and resets the removed
element itself to a self-loop. -/
theorem ring_delete_init {h : Heap} {s x : Nat} {l1 l2 : List Nat}
    (hr : isRing h s (l1 ++ x :: l2)) :
    isRing (list_del_init h x) s (l1 ++ l2) ∧
      (list_del_init h x).next x = x ∧ (list_del_init h x).prev x = x := by
  have hdel := ring_delete hr
  obtain ⟨hxs, _, _, hxl1, hxl2, _, _, _, _⟩ := nodup_mid hr.1
  have hyx : ∀ y ∈ s :: (l1 ++ l2), y ≠ x := by
    intro y hy hc
    rw [hc] at hy
    rcases List.mem_cons.1 hy with h1 | h1
    · exact hxs h1
    · rcases List.mem_append.1 h1 with h2 | h2
      · exact hxl1 h2
      · exact hxl2 h2
  refine ⟨?_, ?_, ?_⟩
  · refine ring_congr ?_ ?_ hdel
    · intro y hy
      rw [list_del_init_next, if_neg (hyx y hy)]
    · intro y hy
      rw [list_del_init_prev, if_neg (hyx y hy)]
  · rw [list_del_init_next, if_pos rfl]
  · rw [list_del_init_prev, if_pos rfl]

/-- Moving a ring element to the front: unlink plus link after the sentinel. -/
theorem ring_move_front {h : Heap} {s x : Nat} {l1 l2 : List Nat}
    (hr : isRing h s (l1 ++ x :: l2)) :
    isRing (list_move h x s) s (x :: (l1 ++ l2)) := by
  have hdel := ring_delete hr
  have hx0 : x ≠ 0 := by
    intro hc; apply hr.2.1; rw [← hc]; simp
  have hxmem : x ∉ s :: (l1 ++ l2) := by
    obtain ⟨hxs, _, _, hxl1, hxl2, _, _, _, _⟩ := nodup_mid hr.1
    intro hc
    rcases List.mem_cons.1 hc with h1 | h1
    · exact hxs h1
    · rcases List.mem_append.1 h1 with h2 | h2
      · exact hxl1 h2
      · exact hxl2 h2
  exact ring_insert_front hdel hxmem hx0

/-- Allocation state: a heap together with the list of currently live
allocation blocks, used to model the malloc/free pairing on the insertion
paths of queue.c. -/
structure MState where
  heap : Heap
  blocks : List Nat

/-- Operation q_insert_head of queue.c: null check, element allocation,
string buffer allocation with rollback (free) of the element on failure,
string copy, then list_add after the sentinel.  The oracle arguments give
the outcomes of the two mallocs; none models an allocation failure. -/
def q_insert_head (st : MState) (head : Option Nat) (v : List Nat)
    (elemAlloc : Option Nat) (strAlloc : Option Nat) : MState × Bool :=
  match head with
  | none => (st, false)
  | some hd =>
    match elemAlloc with
    | none => (st, false)
    | some node =>
      let st1 : MState := { st with blocks := node :: st.blocks }
      match strAlloc with
      | none => ({ st1 with blocks := st1.blocks.erase node }, false)
      | some sb =>
        let st2 : MState := { heap := setV st1.heap node v, blocks := sb :: st1.blocks }
        ({ st2 with heap := list_add st2.heap node hd }, true)

/-- Operation q_insert_tail of queue.c, identical to q_insert_head except the
final link step uses list_add_tail. -/
def q_insert_tail (st : MState) (head : Option Nat) (v : List Nat)
    (elemAlloc : Option Nat) (strAlloc : Option Nat) : MState × Bool :=
  match head with
  | none => (st, false)
  | some hd =>
    match elemAlloc with
    | none => (st, false)
    | some node =>
      let st1 : MState := { st with blocks := node :: st.blocks }
      match strAlloc with
      | none => ({ st1 with blocks := st1.blocks.erase node }, false)
      | some sb =>
        let st2 : MState := { heap := setV st1.heap node v, blocks := sb :: st1.blocks }
        ({ st2 with heap := list_add_tail st2.heap node hd }, true)

/-- Bytes written by strncpy(dst, src, n): the first n bytes of src, padded
with zero bytes up to exactly n bytes. -/
def strncpyBytes (src : List Nat) (n : Nat) : List Nat :=
  src.take n ++ List.replicate (n - src.length) 0

/-- Bytes the removal operations write into a caller buffer of capacity
bufsize: strncpy of at most bufsize - 1 bytes followed by the forced
terminator written at index bufsize - 1. -/
def spCopy (v : List Nat) (bufsize : Nat) : List Nat :=
  strncpyBytes v (bufsize - 1) ++ [0]

/-- C string readback of a byte buffer: the bytes before the first 0. -/
def cstrOf (buf : List Nat) : List Nat := buf.takeWhile (fun b => decide (b ≠ 0))

/-- Operation q_remove_head of queue.c: result heap, removed element address
(none when the ring is null or empty), and the bytes written to the output
buffer when one is supplied. -/
def q_remove_head (h : Heap) (head : Option Nat) (useSp : Bool) (bufsize : Nat) :
    Heap × Option Nat × Option (List Nat) :=
  match head with
  | none => (h, none, none)
  | some s =>
    if list_empty h s then (h, none, none)
    else
      let e := h.next s
      (list_del_init h e, some e, if useSp then some (spCopy (h.val e) bufsize) else none)

/-- Operation q_remove_tail of queue.c. -/
def q_remove_tail (h : Heap) (head : Option Nat) (useSp : Bool) (bufsize : Nat) :
    Heap × Option Nat × Option (List Nat) :=
  match head with
  | none => (h, none, none)
  | some s =>
    if list_empty h s then (h, none, none)
    else
      let e := h.prev s
      (list_del_init h e, some e, if useSp then some (spCopy (h.val e) bufsize) else none)

/-- Two-pointer walk of q_delete_mid: front steps forward from the first
element, back steps backward from the last, until they meet or back's prev
is front. -/
def midWalk (h : Heap) : Nat → Nat → Nat → Nat
  | 0, front, _ => front
  | fuel + 1, front, back =>
    if front = back ∨ h.prev back = front then front
    else midWalk h fuel (h.next front) (h.prev back)

/-- Operation q_delete_mid of queue.c. -/
def q_delete_mid (h : Heap) (head : Option Nat) (fuel : Nat) : Heap × Bool :=
  match head with
  | none => (h, false)
  | some s =>
    if list_empty h s then (h, false)
    else (list_del h (midWalk h fuel (h.next s) (h.prev s)), true)

/-- Safe-iteration loop of q_delete_dup with the last_dup flag. -/
def dupLoop : Nat → Heap → Nat → Nat → Bool → Heap
  | 0, h, _, _, _ => h
  | fuel + 1, h, s, ptr, lastDup =>
    if ptr = s then h
    else
      let nxt := h.next ptr
      let mtch : Bool := decide (nxt ≠ s) && decide (strcmp (h.val ptr) (h.val nxt) = 0)
      let h' := if mtch || lastDup then list_del h ptr else h
      dupLoop fuel h' s nxt mtch

/-- Operation q_delete_dup of queue.c. -/
def q_delete_dup (h : Heap) (head : Option Nat) (fuel : Nat) : Heap × Bool :=
  match head with
  | none => (h, false)
  | some s =>
    if list_empty h s then (h, true)
    else (dupLoop fuel h s (h.next s) false, true)

/-- Loop of q_swap: unlink the current node and relink it right after what
was its next neighbor, then continue from the node now following it. -/
def swapLoop : Nat → Heap → Nat → Nat → Heap
  | 0, h, _, _ => h
  | fuel + 1, h, s, node =>
    if h.next node = s ∨ node = s then h
    else
      let nxt := h.next node
      let h' := list_add (list_del h node) node nxt
      swapLoop fuel h' s (h'.next node)

/-- Operation q_swap of queue.c. -/
def q_swap (h : Heap) (head : Option Nat) (fuel : Nat) : Heap :=
  match head with
  | none => h
  | some s => if list_empty h s then h else swapLoop fuel h s (h.next s)

/-- Safe-iteration loop of q_reverse: move every element to the front. -/
def revLoop : Nat → Heap → Nat → Nat → Heap
  | 0, h, _, _ => h
  | fuel + 1, h, s, node =>
    if node = s then h
    else
      let safe := h.next node
      revLoop fuel (list_move h node s) s safe

/-- Operation q_reverse of queue.c. -/
def q_reverse (h : Heap) (head : Option Nat) (fuel : Nat) : Heap :=
  match head with
  | none => h
  | some s => if list_empty h s then h else revLoop fuel h s (h.next s)

/-- Slow/fast split walk of merge_sort: slow advances one node and fast two
per step, until fast or its successor is NULL. -/
def splitWalk (h : Heap) : Nat → Nat → Nat → Nat
  | 0, slow, _ => slow
  | fuel + 1, slow, fast =>
    if fast = 0 ∨ h.next fast = 0 then slow
    else splitWalk h fuel (h.next slow) (h.next (h.next fast))

/-- Function sorted_merge of queue.c: recursive merge of two sorted
null-terminated singly linked chains, the left chain preferred on ties. -/
def sorted_merge : Nat → Heap → Nat → Nat → Heap × Nat
  | 0, h, f, b => (h, if f ≠ 0 then f else b)
  | fuel + 1, h, f, b =>
    if f = 0 ∨ b = 0 then (h, if f ≠ 0 then f else b)
    else if 0 < strcmp (h.val f) (h.val b) then
      let r := sorted_merge fuel h f (h.next b)
      (setN r.1 b r.2, b)
    else
      let r := sorted_merge fuel h (h.next f) b
      (setN r.1 f r.2, f)

/-- Function merge_sort of queue.c: split the chain at its midpoint with the
slow/fast walk, sort both halves recursively and merge them. -/
def merge_sort : Nat → Heap → Nat → Heap × Nat
  | 0, h, a => (h, a)
  | fuel + 1, h, a =>
    if a = 0 ∨ h.next a = 0 then (h, a)
    else
      let slow := splitWalk h fuel a (h.next a)
      let back := h.next slow
      let h1 := setN h slow 0
      let r1 := merge_sort fuel h1 a
      let r2 := merge_sort fuel r1.1 back
      sorted_merge fuel r2.1 r1.2 r2.2

/-- Rethreading walk of q_sort: walk the sorted chain from the sentinel and
re-establish every prev pointer, returning the last node reached. -/
def rethreadWalk : Nat → Heap → Nat → Heap × Nat
  | 0, h, tmp => (h, tmp)
  | fuel + 1, h, tmp =>
    if h.next tmp = 0 then (h, tmp)
    else rethreadWalk fuel (setP h (h.next tmp) tmp) (h.next tmp)

/-- Operation q_sort of queue.c: guards, cut the ring open into a
null-terminated chain, merge sort it, store its new head after the sentinel,
rethread the prev pointers and close the ring. -/
def q_sort (h : Heap) (head : Option Nat) (fuel : Nat) : Heap :=
  match head with
  | none => h
  | some s =>
    if list_empty h s || list_is_singular h s then h
    else
      let h0 := setN h (h.prev s) 0
      let r := merge_sort fuel h0 (h0.next s)
      let h2 := setN r.1 s r.2
      let r2 := rethreadWalk fuel h2 s
      setP (setN r2.1 r2.2 s) s r2.2

/-- Pairwise adjacent swap at the level of traversal orders. -/
def swapA : List Nat → List Nat
  | a :: b :: t => b :: a :: swapA t
  | l => l

/-- Duplicate collapsing with the last_dup flag at the level of traversal
orders, mirroring the loop of q_delete_dup. -/
def delDupA (v : Nat → List Nat) : List Nat → Bool → List Nat
  | [], _ => []
  | [x], lastDup => if lastDup then [] else [x]
  | x :: y :: t, lastDup =>
    let m : Bool := decide (strcmp (v x) (v y) = 0)
    if m || lastDup then delDupA v (y :: t) m
    else x :: delDupA v (y :: t) m

/-- List merge with the comparison and tie rule of sorted_merge. -/
def mergeA (v : Nat → List Nat) : List Nat → List Nat → List Nat
  | [], b => b
  | a, [] => a
  | f :: fs, b :: bs =>
    if 0 < strcmp (v f) (v b) then b :: mergeA v (f :: fs) bs
    else f :: mergeA v fs (b :: bs)

/-- List merge sort with the split of merge_sort: the front half receives the
extra element for odd lengths. -/
def msortA (v : Nat → List Nat) (l : List Nat) : List Nat :=
  if hl : l.length ≤ 1 then l
  else
    mergeA v (msortA v (l.take ((l.length + 1) / 2))) (msortA v (l.drop ((l.length + 1) / 2)))
termination_by l.length
decreasing_by
  · simp only [List.length_take]; omega
  · simp only [List.length_drop]; omega

/-- Size in bytes of the C type size_t on the LP64 target platform. -/
def sizeof_size_t : Nat := 8

/-- Number of bytes q_insert_head and q_insert_tail allocate for the string
buffer: the source calls malloc(sizeof(length)) where length is a size_t
variable, so the size of the counter variable, independent of the string. -/
def insertAllocBytes (_s : List Nat) : Nat := sizeof_size_t

/-- Number of bytes strncpy(node->value, s, strlen(s) + 1) writes into that
buffer: the whole string plus its terminator. -/
def insertCopyBytes (s : List Nat) : Nat := s.length + 1

/-- Modelled from the spec: the corrected allocation contract for the string
buffer of an inserted element, exactly length(value) + 1 bytes. -/
def specAllocBytes (s : List Nat) : Nat := s.length + 1

theorem ring_list_empty {h : Heap} {s : Nat} {l : List Nat} (hr : isRing h s l) :
    list_empty h s = true ↔ l = [] := by
  unfold list_empty
  rw [beq_iff_eq]
  exact ring_empty_iff hr

theorem ring_list_empty_false {h : Heap} {s : Nat} {x : Nat} {t : List Nat}
    (hr : isRing h s (x :: t)) : list_empty h s = false := by
  rw [← Bool.not_eq_true]
  intro hc
  exact absurd ((ring_list_empty hr).1 hc) (by simp)

theorem ring_list_singular {h : Heap} {s : Nat} {l : List Nat} (hr : isRing h s l) :
    list_is_singular h s = true ↔ ∃ x, l = [x] := by
  constructor
  · intro hs
    unfold list_is_singular at hs
    rw [Bool.and_eq_true, Bool.not_eq_true', beq_iff_eq] at hs
    obtain ⟨hne, heq⟩ := hs
    cases l with
    | nil =>
        exfalso
        rw [(ring_list_empty hr).2 rfl] at hne
        cases hne
    | cons x t =>
        cases t with
        | nil => exact ⟨x, rfl⟩
        | cons y t2 =>
            exfalso
            have hx := (ring_next_sentinel_cons hr).1
            have hp := ring_prev_sentinel hr
            have hgl : (s :: x :: y :: t2).getLast (by simp) = (y :: t2).getLast (by simp) := by
              rw [List.getLast_cons (by simp), List.getLast_cons (by simp)]
            have hxlast : x = (y :: t2).getLast (by simp) := by
              rw [← hx, ← heq, hp, hgl]
            have hmem : x ∈ y :: t2 := by
              rw [hxlast]; exact List.getLast_mem _
            have hnd := hr.1
            rcases List.nodup_cons.1 hnd with ⟨_, hnd2⟩
            exact (List.nodup_cons.1 hnd2).1 hmem
  · rintro ⟨x, rfl⟩
    have h1 := (ring_next_sentinel_cons hr).1
    have hp := ring_prev_sentinel hr
    have hxs : x ≠ s := by
      intro hc
      have := hr.1
      rw [hc] at this
      simp at this
    unfold list_is_singular list_empty
    rw [h1, hp]
    simp [hxs]

theorem q_remove_head_nil (h : Heap) (useSp : Bool) (bs : Nat) :
    q_remove_head h none useSp bs = (h, none, none) := rfl

theorem q_remove_tail_nil (h : Heap) (useSp : Bool) (bs : Nat) :
    q_remove_tail h none useSp bs = (h, none, none) := rfl

/-- Last element of a list with an explicit final element. -/
theorem getLast_snoc (s x : Nat) (ini : List Nat) :
    (s :: (ini ++ [x])).getLast (by simp) = x := by
  induction ini generalizing s with
  | nil => rfl
  | cons a t ih =>
      rw [List.getLast_cons (by simp)]
      exact ih a

/-- Behavior of q_remove_head on a ring: nothing happens when empty,
otherwise the first element is unlinked, reset to a self-loop and returned,
the remaining elements stay linked in order and no value changes. -/
theorem q_remove_head_spec {h : Heap} {s : Nat} {l : List Nat} (hr : isRing h s l)
    (useSp : Bool) (bs : Nat) :
    (l = [] → q_remove_head h (some s) useSp bs = (h, none, none)) ∧
    (∀ x t, l = x :: t →
      q_remove_head h (some s) useSp bs =
        (list_del_init h x, some x, if useSp then some (spCopy (h.val x) bs) else none) ∧
      isRing (list_del_init h x) s t ∧
      (list_del_init h x).next x = x ∧ (list_del_init h x).prev x = x ∧ x ∉ t ∧
      (list_del_init h x).val = h.val) := by
  constructor
  · intro hl; subst hl
    have he : list_empty h s = true := (ring_list_empty hr).2 rfl
    simp [q_remove_head, he]
  · intro x t hl; subst hl
    have hx := (ring_next_sentinel_cons hr).1
    have hrdec : isRing h s ([] ++ x :: t) := by simpa using hr
    have hdel := ring_delete_init hrdec
    have hnd := hr.1
    have hempty := ring_list_empty_false hr
    refine ⟨?_, by simpa using hdel.1, hdel.2.1, hdel.2.2, ?_, rfl⟩
    · simp only [q_remove_head, hempty, Bool.false_eq_true, if_false, hx]
    · rcases List.nodup_cons.1 hnd with ⟨_, hnd2⟩
      exact (List.nodup_cons.1 hnd2).1

/-- Behavior of q_remove_tail on a ring: symmetric to q_remove_head, acting
on the last element. -/
theorem q_remove_tail_spec {h : Heap} {s : Nat} {l : List Nat} (hr : isRing h s l)
    (useSp : Bool) (bs : Nat) :
    (l = [] → q_remove_tail h (some s) useSp bs = (h, none, none)) ∧
    (∀ ini x, l = ini ++ [x] →
      q_remove_tail h (some s) useSp bs =
        (list_del_init h x, some x, if useSp then some (spCopy (h.val x) bs) else none) ∧
      isRing (list_del_init h x) s ini ∧
      (list_del_init h x).next x = x ∧ (list_del_init h x).prev x = x ∧ x ∉ ini ∧
      (list_del_init h x).val = h.val) := by
  constructor
  · intro hl; subst hl
    have he : list_empty h s = true := (ring_list_empty hr).2 rfl
    simp [q_remove_tail, he]
  · intro ini x hl; subst hl
    have hp := ring_prev_sentinel hr
    have hpx : h.prev s = x := by rw [hp]; exact getLast_snoc s x ini
    have hrdec : isRing h s (ini ++ x :: []) := by simpa using hr
    have hdel := ring_delete_init hrdec
    have hnd := hr.1
    have hxini : x ∉ ini := by
      rcases List.nodup_cons.1 hnd with ⟨_, hnd2⟩
      have := List.nodup_middle.1 (by simpa using hnd2)
      exact fun hc => (List.nodup_cons.1 this).1 (by simp [hc])
    have hempty : list_empty h s = false := by
      cases ini with
      | nil => exact ring_list_empty_false (by simpa using hr)
      | cons a b => exact ring_list_empty_false (by simpa using hr)
    refine ⟨?_, by simpa using hdel.1, hdel.2.1, hdel.2.2, hxini, rfl⟩
    simp only [q_remove_tail, hempty, Bool.false_eq_true, if_false, hpx]

theorem q_insert_head_fail (st : MState) (hd : Nat) (v : List Nat) (ea sa : Option Nat) :
    q_insert_head st none v ea sa = (st, false) ∧
    q_insert_head st (some hd) v none sa = (st, false) ∧
    (∀ n, q_insert_head st (some hd) v (some n) none = (st, false)) := by
  refine ⟨rfl, rfl, fun n => ?_⟩
  unfold q_insert_head
  simp [List.erase_cons_head]

theorem q_insert_tail_fail (st : MState) (hd : Nat) (v : List Nat) (ea sa : Option Nat) :
    q_insert_tail st none v ea sa = (st, false) ∧
    q_insert_tail st (some hd) v none sa = (st, false) ∧
    (∀ n, q_insert_tail st (some hd) v (some n) none = (st, false)) := by
  refine ⟨rfl, rfl, fun n => ?_⟩
  unfold q_insert_tail
  simp [List.erase_cons_head]

/-- Success path of q_insert_head: the fresh element carries the copied value
and is linked at the front of the traversal. -/
theorem q_insert_head_success {st : MState} {s : Nat} {l : List Nat}
    (hr : isRing st.heap s l) {n : Nat} (hn : n ∉ s :: l) (h0 : n ≠ 0)
    (v : List Nat) (sb : Nat) :
    (q_insert_head st (some s) v (some n) (some sb)).2 = true ∧
    isRing (q_insert_head st (some s) v (some n) (some sb)).1.heap s (n :: l) ∧
    (q_insert_head st (some s) v (some n) (some sb)).1.heap.val n = v ∧
    ∀ y, y ≠ n → (q_insert_head st (some s) v (some n) (some sb)).1.heap.val y = st.heap.val y := by
  have hrv : isRing (setV st.heap n v) s l :=
    @ring_congr st.heap (setV st.heap n v) s l (fun y _ => rfl) (fun y _ => rfl) hr
  refine ⟨rfl, ?_, ?_, ?_⟩
  · exact ring_insert_front hrv hn h0
  · show (list_add (setV st.heap n v) n s).val n = v
    rw [list_add_val]
    simp
  · intro y hy
    show (list_add (setV st.heap n v) n s).val y = st.heap.val y
    rw [list_add_val]
    simp [hy]

/-- Success path of q_insert_tail: the fresh element carries the copied value
and is linked at the back of the traversal. -/
theorem q_insert_tail_success {st : MState} {s : Nat} {l : List Nat}
    (hr : isRing st.heap s l) {n : Nat} (hn : n ∉ s :: l) (h0 : n ≠ 0)
    (v : List Nat) (sb : Nat) :
    (q_insert_tail st (some s) v (some n) (some sb)).2 = true ∧
    isRing (q_insert_tail st (some s) v (some n) (some sb)).1.heap s (l ++ [n]) ∧
    (q_insert_tail st (some s) v (some n) (some sb)).1.heap.val n = v ∧
    ∀ y, y ≠ n → (q_insert_tail st (some s) v (some n) (some sb)).1.heap.val y = st.heap.val y := by
  have hrv : isRing (setV st.heap n v) s l :=
    @ring_congr st.heap (setV st.heap n v) s l (fun y _ => rfl) (fun y _ => rfl) hr
  refine ⟨rfl, ?_, ?_, ?_⟩
  · exact ring_insert_back hrv hn h0
  · show (list_add_tail (setV st.heap n v) n s).val n = v
    rw [list_add_tail_val]
    simp
  · intro y hy
    show (list_add_tail (setV st.heap n v) n s).val y = st.heap.val y
    rw [list_add_tail_val]
    simp [hy]

/-- Successor of a ring element in terms of the traversal order. -/
theorem ring_next_mid {h : Heap} {s x : Nat} {l1 l2 : List Nat}
    (hr : isRing h s (l1 ++ x :: l2)) : h.next x = l2.headD s := by
  obtain ⟨_, _, hseg⟩ := hr
  obtain ⟨_, hs2⟩ := (seg_append h s l1 s x l2).1 hseg
  cases l2 with
  | nil => exact hs2.1
  | cons y t => exact hs2.1.1

/-- Ring elements are distinct from the sentinel and from NULL. -/
theorem ring_mem_ne {h : Heap} {s : Nat} {l : List Nat} (hr : isRing h s l) :
    ∀ x ∈ l, x ≠ s ∧ x ≠ 0 := by
  intro x hx
  constructor
  · intro hc
    have hnd := hr.1
    rw [hc] at hx
    exact (List.nodup_cons.1 hnd).1 hx
  · intro hc
    apply hr.2.1
    rw [← hc]
    exact List.mem_cons_of_mem s hx

@[simp] theorem swapA_nil : swapA [] = [] := rfl

@[simp] theorem swapA_single (a : Nat) : swapA [a] = [a] := rfl

@[simp] theorem swapA_cons2 (a b : Nat) (t : List Nat) :
    swapA (a :: b :: t) = b :: a :: swapA t := rfl

/-- Loop of q_reverse: the processed prefix accumulates in reverse in front of
the unprocessed suffix. -/
theorem revLoop_spec :
    ∀ (fuel : Nat) (suffix : List Nat) (h : Heap) (s : Nat) (pre : List Nat) (node : Nat),
      isRing h s (pre.reverse ++ suffix) →
      suffix.length ≤ fuel →
      ((suffix = [] ∧ node = s) ∨ (∃ t, suffix = node :: t)) →
      isRing (revLoop fuel h s node) s (pre ++ suffix).reverse ∧
      (revLoop fuel h s node).val = h.val := by
  intro fuel
  induction fuel with
  | zero =>
      intro suffix h s pre node hr hlen hnode
      have hsuf : suffix = [] := List.length_eq_zero.1 (Nat.le_zero.1 hlen)
      subst hsuf
      rcases hnode with ⟨_, hn⟩ | ⟨t, hc⟩
      · rw [hn]
        refine ⟨by simpa [revLoop] using hr, by simp [revLoop]⟩
      · cases hc
  | succ fuel ih =>
      intro suffix h s pre node hr hlen hnode
      rcases hnode with ⟨hs, hn⟩ | ⟨t, hsuf⟩
      · subst hs
        rw [hn]
        refine ⟨by simpa [revLoop] using hr, by simp [revLoop]⟩
      · subst hsuf
        have hxne := ring_mem_ne hr node (by simp)
        have hnx : h.next node = t.headD s := ring_next_mid hr
        have hmove : isRing (list_move h node s) s (node :: (pre.reverse ++ t)) :=
          ring_move_front hr
        have hmove2 : isRing (list_move h node s) s ((pre ++ [node]).reverse ++ t) := by
          simpa using hmove
        have hrec := ih t (list_move h node s) s (pre ++ [node]) (t.headD s) hmove2
          (by simpa using Nat.le_of_succ_le_succ hlen) ?_
        · have heq : revLoop (fuel + 1) h s node =
              revLoop fuel (list_move h node s) s (h.next node) := by
            rw [revLoop, if_neg hxne.1]
          rw [heq, hnx]
          constructor
          · have hl : (pre ++ [node]) ++ t = pre ++ node :: t := by simp
            rw [← hl]
            exact hrec.1
          · rw [hrec.2]
            rfl
        · cases t with
          | nil => exact Or.inl ⟨rfl, rfl⟩
          | cons y t2 => exact Or.inr ⟨t2, rfl⟩

/-- Operation q_reverse reverses the traversal order, changes no value and is
the identity on a null or empty ring. -/
theorem q_reverse_spec {h : Heap} {s : Nat} {l : List Nat} (hr : isRing h s l)
    {fuel : Nat} (hf : l.length ≤ fuel) :
    isRing (q_reverse h (some s) fuel) s l.reverse ∧
    (q_reverse h (some s) fuel).val = h.val ∧
    (l = [] → q_reverse h (some s) fuel = h) ∧
    q_reverse h none fuel = h := by
  cases l with
  | nil =>
      have he : list_empty h s = true := (ring_list_empty hr).2 rfl
      refine ⟨?_, ?_, fun _ => ?_, rfl⟩ <;> simp [q_reverse, he, hr]
  | cons x t =>
      have he := ring_list_empty_false hr
      have hx := (ring_next_sentinel_cons hr).1
      have hloop := revLoop_spec fuel (x :: t) h s [] x (by simpa using hr) hf
        (Or.inr ⟨t, rfl⟩)
      have heq : q_reverse h (some s) fuel = revLoop fuel h s x := by
        simp [q_reverse, he, hx]
      refine ⟨?_, ?_, fun hc => (List.cons_ne_nil x t hc).elim, rfl⟩
      · rw [heq]; simpa using hloop.1
      · rw [heq]; exact hloop.2

/-- Loop of q_swap: each step exchanges the current adjacent pair and jumps
to the element after the pair. -/
theorem swapLoop_spec :
    ∀ (fuel : Nat) (suffix : List Nat) (h : Heap) (s : Nat) (pre : List Nat) (node : Nat),
      isRing h s (pre ++ suffix) →
      suffix.length ≤ fuel →
      ((suffix = [] ∧ node = s) ∨ (∃ t, suffix = node :: t)) →
      isRing (swapLoop fuel h s node) s (pre ++ swapA suffix) ∧
      (swapLoop fuel h s node).val = h.val := by
  intro fuel
  induction fuel with
  | zero =>
      intro suffix h s pre node hr hlen hnode
      have hsuf : suffix = [] := List.length_eq_zero.1 (Nat.le_zero.1 hlen)
      subst hsuf
      rcases hnode with ⟨_, hn⟩ | ⟨t, hc⟩
      · rw [hn]
        refine ⟨by simpa [swapLoop] using hr, by simp [swapLoop]⟩
      · cases hc
  | succ fuel ih =>
      intro suffix h s pre node hr hlen hnode
      rcases hnode with ⟨hs, hn⟩ | ⟨t, hsuf⟩
      · subst hs
        rw [hn]
        refine ⟨by simpa [swapLoop] using hr, by simp [swapLoop]⟩
      · subst hsuf
        have hxne := ring_mem_ne hr node (by simp)
        have hnx : h.next node = t.headD s := ring_next_mid hr
        cases t with
        | nil =>
            have hguard : h.next node = s := by simpa using hnx
            rw [swapLoop, if_pos (Or.inl hguard)]
            refine ⟨by simpa using hr, rfl⟩
        | cons y t2 =>
            have hyne := ring_mem_ne hr y (by simp)
            have hnxy : h.next node = y := by simpa using hnx
            have hguard1 : ¬(h.next node = s) := by rw [hnxy]; exact hyne.1
            have hdel : isRing (list_del h node) s (pre ++ y :: t2) :=
              ring_delete hr
            have hxfresh : node ∉ s :: (pre ++ y :: t2) := by
              have hnd := hr.1
              obtain ⟨hxs, _, _, hxl1, hxl2, _, _, _, _⟩ := nodup_mid hnd
              intro hc
              rcases List.mem_cons.1 hc with h1 | h1
              · exact hxs h1
              · rcases List.mem_append.1 h1 with h2 | h2
                · exact hxl1 h2
                · exact hxl2 h2
            have hadd : isRing (list_add (list_del h node) node y) s (pre ++ y :: node :: t2) :=
              ring_insert_after hdel hxfresh hxne.2
            have hadd2 : isRing (list_add (list_del h node) node y) s
                ((pre ++ [y]) ++ node :: t2) := by simpa using hadd
            have hnext2 : (list_add (list_del h node) node y).next node = t2.headD s :=
              ring_next_mid hadd2
            have hrec := ih t2 (list_add (list_del h node) node y) s (pre ++ [y, node])
              ((list_add (list_del h node) node y).next node) (by simpa using hadd)
              (by simp at hlen ⊢; omega) ?_
            · have heq : swapLoop (fuel + 1) h s node =
                  swapLoop fuel (list_add (list_del h node) node y) s
                    ((list_add (list_del h node) node y).next node) := by
                rw [swapLoop, if_neg (not_or.2 ⟨hguard1, hxne.1⟩), hnxy]
              rw [heq]
              constructor
              · have hl : (pre ++ [y, node]) ++ swapA t2 = pre ++ swapA (node :: y :: t2) := by
                  simp
                rw [← hl]
                exact hrec.1
              · rw [hrec.2]
                rfl
            · rw [hnext2]
              cases t2 with
              | nil => exact Or.inl ⟨rfl, rfl⟩
              | cons z t3 => exact Or.inr ⟨t3, rfl⟩

/-- Operation q_swap exchanges adjacent pairs of the traversal order, changes
no value and is the identity on a null or empty ring. -/
theorem q_swap_spec {h : Heap} {s : Nat} {l : List Nat} (hr : isRing h s l)
    {fuel : Nat} (hf : l.length ≤ fuel) :
    isRing (q_swap h (some s) fuel) s (swapA l) ∧
    (q_swap h (some s) fuel).val = h.val ∧
    (l = [] → q_swap h (some s) fuel = h) ∧
    q_swap h none fuel = h := by
  cases l with
  | nil =>
      have he : list_empty h s = true := (ring_list_empty hr).2 rfl
      refine ⟨?_, ?_, fun _ => ?_, rfl⟩ <;> simp [q_swap, he, hr]
  | cons x t =>
      have he := ring_list_empty_false hr
      have hx := (ring_next_sentinel_cons hr).1
      have hloop := swapLoop_spec fuel (x :: t) h s [] x (by simpa using hr) hf
        (Or.inr ⟨t, rfl⟩)
      have heq : q_swap h (some s) fuel = swapLoop fuel h s x := by
        simp [q_swap, he, hx]
      refine ⟨?_, ?_, fun hc => (List.cons_ne_nil x t hc).elim, rfl⟩
      · rw [heq]; simpa using hloop.1
      · rw [heq]; exact hloop.2

set_option linter.deprecated false

/-- Adjacent ring relation between consecutive interior positions of a
segment. -/
theorem seg_get_rel {h : Heap} :
    ∀ {u : List Nat} {a b : Nat}, seg h a u b →
      ∀ i (hi : i + 1 < u.length),
        ringRel h (u.get ⟨i, by omega⟩) (u.get ⟨i + 1, hi⟩) := by
  intro u
  induction u with
  | nil => intro a b _ i hi; simp at hi
  | cons x u ih =>
      intro a b hs i hi
      cases i with
      | zero =>
          cases u with
          | nil => simp at hi
          | cons y u2 => exact hs.2.1
      | succ j =>
          have hrec := ih hs.2 j (by simpa using hi)
          simpa using hrec

/-- Next and prev pointers between consecutive traversal positions of a
ring. -/
theorem ring_get_rel {h : Heap} {s : Nat} {l : List Nat} (hr : isRing h s l)
    (i : Nat) (hi : i + 1 < l.length) :
    h.next (l.get ⟨i, by omega⟩) = l.get ⟨i + 1, hi⟩ ∧
    h.prev (l.get ⟨i + 1, hi⟩) = l.get ⟨i, by omega⟩ :=
  seg_get_rel hr.2.2 i hi

/-- The two-pointer walk of q_delete_mid lands on the element at index
start + half the index distance. -/
theorem midWalk_get {h : Heap} {s : Nat} {l : List Nat} (hr : isRing h s l) :
    ∀ (fuel i j : Nat) (hi : i < l.length) (hj : j < l.length),
      i ≤ j → (j - i) / 2 ≤ fuel →
      midWalk h fuel (l.get ⟨i, hi⟩) (l.get ⟨j, hj⟩) =
        l.get ⟨i + (j - i) / 2, by omega⟩ := by
  have hndl : l.Nodup := (List.nodup_cons.1 hr.1).2
  intro fuel
  induction fuel with
  | zero =>
      intro i j hi hj hij hf
      have hidx : i + (j - i) / 2 = i := by omega
      simp only [midWalk, hidx]
  | succ fuel ih =>
      intro i j hi hj hij hf
      by_cases hd : j - i ≤ 1
      · have hguard : l.get ⟨i, hi⟩ = l.get ⟨j, hj⟩ ∨
            h.prev (l.get ⟨j, hj⟩) = l.get ⟨i, hi⟩ := by
          rcases Nat.lt_or_ge i j with hlt | hge
          · have hji : j = i + 1 := by omega
            subst hji
            exact Or.inr (ring_get_rel hr i hj).2
          · have hji : i = j := by omega
            subst hji
            exact Or.inl rfl
        rw [midWalk, if_pos hguard]
        have hidx : i + (j - i) / 2 = i := by omega
        simp only [hidx]
      · push_neg at hd
        have hij1 : i + 1 < l.length := by omega
        have hj1 : j - 1 < l.length := by omega
        have hne1 : l.get ⟨i, hi⟩ ≠ l.get ⟨j, hj⟩ := by
          intro hc
          have hfin := (List.Nodup.get_inj_iff hndl).1 hc
          simp only [Fin.mk.injEq] at hfin
          omega
        have hprev : h.prev (l.get ⟨j, hj⟩) = l.get ⟨j - 1, hj1⟩ := by
          have hgr := (ring_get_rel hr (j - 1) (by omega)).2
          have hjj : j - 1 + 1 = j := by omega
          simp only [hjj] at hgr
          exact hgr
        have hne2 : h.prev (l.get ⟨j, hj⟩) ≠ l.get ⟨i, hi⟩ := by
          rw [hprev]
          intro hc
          have hfin := (List.Nodup.get_inj_iff hndl).1 hc
          simp only [Fin.mk.injEq] at hfin
          omega
        have hnext : h.next (l.get ⟨i, hi⟩) = l.get ⟨i + 1, hij1⟩ := (ring_get_rel hr i hij1).1
        rw [midWalk, if_neg (not_or.2 ⟨hne1, hne2⟩), hnext, hprev]
        have hrec := ih (i + 1) (j - 1) hij1 hj1 (by omega) (by omega)
        rw [hrec]
        have hidx : i + 1 + (j - 1 - (i + 1)) / 2 = i + (j - i) / 2 := by omega
        simp only [hidx]

/-- Operation q_delete_mid on a non-empty ring unlinks the element at
zero-based index (n-1)/2 of the traversal order and returns true; on a null
or empty ring it returns false and changes nothing. -/
theorem q_delete_mid_spec {h : Heap} {s : Nat} {l : List Nat} (hr : isRing h s l)
    {fuel : Nat} (hf : l.length ≤ fuel) :
    (l ≠ [] → (q_delete_mid h (some s) fuel).2 = true ∧
      isRing (q_delete_mid h (some s) fuel).1 s (l.eraseIdx ((l.length - 1) / 2)) ∧
      (q_delete_mid h (some s) fuel).1.val = h.val) ∧
    (l = [] → q_delete_mid h (some s) fuel = (h, false)) ∧
    q_delete_mid h none fuel = (h, false) := by
  refine ⟨?_, ?_, rfl⟩
  · intro hne
    cases l with
    | nil => exact absurd rfl hne
    | cons x t =>
        have he := ring_list_empty_false hr
        have hk : ((x :: t).length - 1) / 2 < (x :: t).length := by simp; omega
        have hx : h.next s = (x :: t).get ⟨0, by simp⟩ := (ring_next_sentinel_cons hr).1
        have hp : h.prev s = (x :: t).get ⟨(x :: t).length - 1, by simp⟩ := by
          rw [ring_prev_sentinel hr, List.getLast_cons (by simp), List.getLast_eq_get]
        have hmid := midWalk_get hr fuel 0 ((x :: t).length - 1) (by simp) (by simp)
          (by omega) (by simp at hf ⊢; omega)
        simp only [Nat.zero_add, Nat.sub_zero] at hmid
        have hsplit : (x :: t).take (((x :: t).length - 1) / 2) ++
            (x :: t).get ⟨((x :: t).length - 1) / 2, hk⟩ ::
            (x :: t).drop (((x :: t).length - 1) / 2 + 1) = x :: t := by
          rw [← List.drop_eq_get_cons hk]
          exact List.take_append_drop _ _
        have hr2 : isRing h s ((x :: t).take (((x :: t).length - 1) / 2) ++
            (x :: t).get ⟨((x :: t).length - 1) / 2, hk⟩ ::
            (x :: t).drop (((x :: t).length - 1) / 2 + 1)) := by
          rw [hsplit]; exact hr
        have hdel := ring_delete hr2
        have hop : q_delete_mid h (some s) fuel =
            (list_del h ((x :: t).get ⟨((x :: t).length - 1) / 2, hk⟩), true) := by
          simp only [q_delete_mid, he, Bool.false_eq_true, if_false, hx, hp, hmid]
        rw [hop]
        refine ⟨rfl, ?_, rfl⟩
        rw [List.eraseIdx_eq_take_drop_succ]
        exact hdel
  · intro hl; subst hl
    have he : list_empty h s = true := (ring_list_empty hr).2 rfl
    simp [q_delete_mid, he]

theorem dupLoop_sentinel (fuel : Nat) (h : Heap) (s : Nat) (b : Bool) :
    dupLoop fuel h s s b = h := by
  cases fuel with
  | zero => rfl
  | succ fuel => rw [dupLoop, if_pos rfl]

@[simp] theorem delDupA_nil (v : Nat → List Nat) (b : Bool) : delDupA v [] b = [] := rfl

theorem delDupA_single (v : Nat → List Nat) (x : Nat) (b : Bool) :
    delDupA v [x] b = if b then [] else [x] := rfl

theorem delDupA_cons2 (v : Nat → List Nat) (x y : Nat) (t : List Nat) (b : Bool) :
    delDupA v (x :: y :: t) b =
      if (decide (strcmp (v x) (v y) = 0) || b) = true then
        delDupA v (y :: t) (decide (strcmp (v x) (v y) = 0))
      else x :: delDupA v (y :: t) (decide (strcmp (v x) (v y) = 0)) := rfl

/-- Loop of q_delete_dup: the processed prefix stays, each suffix element is
kept or deleted according to the comparison with its successor and the
last_dup flag. -/
theorem dupLoop_spec :
    ∀ (fuel : Nat) (suffix : List Nat) (h : Heap) (s : Nat) (pre : List Nat)
      (ptr : Nat) (b : Bool),
      isRing h s (pre ++ suffix) →
      suffix.length ≤ fuel →
      ((suffix = [] ∧ ptr = s) ∨ (∃ t, suffix = ptr :: t)) →
      isRing (dupLoop fuel h s ptr b) s (pre ++ delDupA h.val suffix b) ∧
      (dupLoop fuel h s ptr b).val = h.val := by
  intro fuel
  induction fuel with
  | zero =>
      intro suffix h s pre ptr b hr hlen hnode
      have hsuf : suffix = [] := List.length_eq_zero.1 (Nat.le_zero.1 hlen)
      subst hsuf
      rcases hnode with ⟨_, hn⟩ | ⟨t, hc⟩
      · rw [hn]
        exact ⟨by simpa using hr, rfl⟩
      · cases hc
  | succ fuel ih =>
      intro suffix h s pre ptr b hr hlen hnode
      rcases hnode with ⟨hs, hn⟩ | ⟨t, hsuf⟩
      · subst hs
        rw [hn, dupLoop_sentinel]
        exact ⟨by simpa using hr, rfl⟩
      · subst hsuf
        have hpne := ring_mem_ne hr ptr (by simp)
        have hnx : h.next ptr = t.headD s := ring_next_mid hr
        cases t with
        | nil =>
            have hnxs : h.next ptr = s := by simpa using hnx
            have hmtch : (decide (¬h.next ptr = s) && decide (strcmp (h.val ptr)
                (h.val (h.next ptr)) = 0)) = false := by
              simp [hnxs]
            rw [dupLoop, if_neg hpne.1]
            simp only [hmtch, Bool.false_or]
            cases b with
            | true =>
                have hdel : isRing (list_del h ptr) s (pre ++ []) :=
                  ring_delete hr
                rw [if_pos rfl]
                rw [hnxs, dupLoop_sentinel]
                refine ⟨?_, rfl⟩
                rw [delDupA_single, if_pos rfl]
                exact hdel
            | false =>
                rw [if_neg (by simp)]
                rw [hnxs, dupLoop_sentinel]
                refine ⟨?_, rfl⟩
                rw [delDupA_single, if_neg (by simp)]
                exact hr
        | cons y t2 =>
            have hyne := ring_mem_ne hr y (by simp)
            have hnxy : h.next ptr = y := by simpa using hnx
            have hdy : decide (¬h.next ptr = s) = true := by
              rw [hnxy]; exact decide_eq_true hyne.1
            have hmtch : (decide (¬h.next ptr = s) && decide (strcmp (h.val ptr)
                (h.val (h.next ptr)) = 0)) =
                decide (strcmp (h.val ptr) (h.val y) = 0) := by
              rw [hdy, Bool.true_and, hnxy]
            rw [dupLoop, if_neg hpne.1]
            simp only [hmtch]
            by_cases hcond : (decide (strcmp (h.val ptr) (h.val y) = 0) || b) = true
            · rw [if_pos hcond]
              have hdel : isRing (list_del h ptr) s (pre ++ y :: t2) :=
                ring_delete hr
              have hrec := ih (y :: t2) (list_del h ptr) s pre y
                (decide (strcmp (h.val ptr) (h.val y) = 0)) hdel
                (by simp at hlen ⊢; omega) (Or.inr ⟨t2, rfl⟩)
              rw [hnxy]
              constructor
              · have hveq : (list_del h ptr).val = h.val := rfl
                rw [delDupA_cons2, if_pos hcond]
                have := hrec.1
                rw [hveq] at this
                exact this
              · rw [hrec.2]
                rfl
            · rw [if_neg hcond]
              have hrec := ih (y :: t2) h s (pre ++ [ptr]) y
                (decide (strcmp (h.val ptr) (h.val y) = 0)) (by simpa using hr)
                (by simp at hlen ⊢; omega) (Or.inr ⟨t2, rfl⟩)
              rw [hnxy]
              constructor
              · rw [delDupA_cons2, if_neg hcond]
                have := hrec.1
                simpa using this
              · exact hrec.2

/-- Operation q_delete_dup returns true on any non-null ring, transforms the
traversal order by the last_dup collapsing pass, changes no value, leaves an
empty ring unchanged, and returns false exactly on a null ring. -/
theorem q_delete_dup_spec {h : Heap} {s : Nat} {l : List Nat} (hr : isRing h s l)
    {fuel : Nat} (hf : l.length ≤ fuel) :
    (q_delete_dup h (some s) fuel).2 = true ∧
    isRing (q_delete_dup h (some s) fuel).1 s (delDupA h.val l false) ∧
    (q_delete_dup h (some s) fuel).1.val = h.val ∧
    (l = [] → (q_delete_dup h (some s) fuel).1 = h) ∧
    q_delete_dup h none fuel = (h, false) := by
  cases l with
  | nil =>
      have he : list_empty h s = true := (ring_list_empty hr).2 rfl
      refine ⟨?_, ?_, ?_, fun _ => ?_, rfl⟩ <;> simp [q_delete_dup, he, hr]
  | cons x t =>
      have he := ring_list_empty_false hr
      have hx := (ring_next_sentinel_cons hr).1
      have hloop := dupLoop_spec fuel (x :: t) h s [] x false (by simpa using hr) hf
        (Or.inr ⟨t, rfl⟩)
      have heq : q_delete_dup h (some s) fuel = (dupLoop fuel h s x false, true) := by
        simp only [q_delete_dup, he, Bool.false_eq_true, if_false, hx]
      rw [heq]
      exact ⟨rfl, by simpa using hloop.1, hloop.2, fun hc => (List.cons_ne_nil x t hc).elim, rfl⟩

/-- Null-terminated singly linked chain: following next pointers from a
visits exactly the addresses of u and then reaches NULL. -/
def isChain (h : Heap) : Nat → List Nat → Prop
  | a, [] => a = 0
  | a, x :: u => a = x ∧ x ≠ 0 ∧ isChain h (h.next x) u

@[simp] theorem isChain_nil (h : Heap) (a : Nat) : isChain h a [] ↔ a = 0 := Iff.rfl

@[simp] theorem isChain_cons (h : Heap) (a x : Nat) (u : List Nat) :
    isChain h a (x :: u) ↔ a = x ∧ x ≠ 0 ∧ isChain h (h.next x) u := Iff.rfl

/-- A chain only reads the next fields of its own elements. -/
theorem isChain_congr {h h' : Heap} :
    ∀ {u : List Nat} {a : Nat}, (∀ y ∈ u, h'.next y = h.next y) →
      isChain h a u → isChain h' a u := by
  intro u
  induction u with
  | nil => intro a _ hc; exact hc
  | cons x u ih =>
      intro a hn hc
      refine ⟨hc.1, hc.2.1, ?_⟩
      rw [hn x (by simp)]
      exact ih (fun y hy => hn y (by simp [hy])) hc.2.2

theorem isChain_setP {h : Heap} {p v : Nat} {u : List Nat} {a : Nat}
    (hc : isChain h a u) : isChain (setP h p v) a u :=
  @isChain_congr h (setP h p v) _ _ (fun _ _ => rfl) hc

/-- Head byte view of a chain list. -/
theorem isChain_headD {h : Heap} {a : Nat} {u : List Nat} (hc : isChain h a u) :
    a = u.headD 0 := by
  cases u with
  | nil => exact hc
  | cons x t => exact hc.1

theorem isChain_ne_zero {h : Heap} :
    ∀ {u : List Nat} {a : Nat}, isChain h a u → ∀ x ∈ u, x ≠ 0 := by
  intro u
  induction u with
  | nil => intro a _ x hx; cases hx
  | cons y u ih =>
      intro a hc x hx
      rcases List.mem_cons.1 hx with h1 | h1
      · rw [h1]; exact hc.2.1
      · exact ih hc.2.2 x h1

/-- Cutting a chain after a non-empty front part: the next pointer of the
front's last node points at the head of the back part, and zeroing it splits
the chain into two independent chains. -/
theorem isChain_split {h : Heap} :
    ∀ (F B : List Nat) (a : Nat) (hF : F ≠ []),
      isChain h a (F ++ B) → (F ++ B).Nodup →
      h.next (F.getLast hF) = B.headD 0 ∧
      isChain (setN h (F.getLast hF) 0) a F ∧
      isChain (setN h (F.getLast hF) 0) (B.headD 0) B := by
  intro F
  induction F with
  | nil => intro B a hF; exact absurd rfl hF
  | cons x F ih =>
      intro B a _ hc hnd
      cases F with
      | nil =>
          obtain ⟨ha, hx0, hrest⟩ := hc
          have hxB : x ∉ B := by
            simpa using (List.nodup_cons.1 (by simpa using hnd)).1
          have hnx : h.next x = B.headD 0 := by
            cases B with
            | nil => exact hrest
            | cons c B2 => exact hrest.1
          refine ⟨hnx, ⟨ha, hx0, by simp⟩, ?_⟩
          have hback0 : isChain h (B.headD 0) B := by
            rw [← hnx]; exact hrest
          refine @isChain_congr h _ _ _ ?_ hback0
          intro y hy
          have hyx : y ≠ x := fun hc2 => hxB (hc2 ▸ hy)
          rw [setN_next, if_neg (by simpa using hyx)]
      | cons z F2 =>
          obtain ⟨ha, hx0, hrest⟩ := hc
          have hnd1 := List.nodup_cons.1 (show (x :: ((z :: F2) ++ B)).Nodup from hnd)
          have hxmem : x ∉ (z :: F2) ++ B := hnd1.1
          have hnd2 : ((z :: F2) ++ B).Nodup := hnd1.2
          have hxlast : x ≠ (z :: F2).getLast (by simp) := by
            intro hc2
            apply hxmem
            rw [hc2]
            exact List.mem_append_left _ (List.getLast_mem _)
          have hih := ih B (h.next x) (by simp) hrest hnd2
          have hlast : ((x :: z :: F2).getLast (by simp)) = (z :: F2).getLast (by simp) :=
            List.getLast_cons (by simp)
          refine ⟨?_, ?_, ?_⟩
          · rw [hlast]; exact hih.1
          · rw [hlast]
            refine ⟨ha, hx0, ?_⟩
            rw [setN_next, if_neg hxlast]
            exact hih.2.1
          · rw [hlast]
            exact hih.2.2

theorem headD_drop {l : List Nat} {i : Nat} (hi : i < l.length) :
    (l.drop i).headD 0 = l.get ⟨i, hi⟩ := by
  rw [List.drop_eq_get_cons hi]
  rfl

theorem getLast_take {l : List Nat} {k : Nat} (hk : 1 ≤ k) (hkl : k ≤ l.length) :
    (l.take k).getLast (by
      intro hc
      have hlc := congrArg List.length hc
      simp only [List.length_take, List.length_nil] at hlc
      omega) = l.get ⟨k - 1, by omega⟩ := by
  have hlen : (l.take k).length = k := by
    simp only [List.length_take]
    omega
  rw [List.getLast_eq_get]
  simp only [List.get_eq_getElem, hlen, List.getElem_take]

theorem mergeA_nil_left (v : Nat → List Nat) (b : List Nat) : mergeA v [] b = b := by
  cases b <;> simp only [mergeA]

theorem mergeA_nil_right (v : Nat → List Nat) (a : List Nat) : mergeA v a [] = a := by
  cases a <;> simp only [mergeA]

theorem mergeA_cons2 (v : Nat → List Nat) (x y : Nat) (fs bs : List Nat) :
    mergeA v (x :: fs) (y :: bs) =
      if 0 < strcmp (v x) (v y) then y :: mergeA v (x :: fs) bs
      else x :: mergeA v fs (y :: bs) := by
  simp only [mergeA]

/-- The merge of two chains is a permutation of their concatenation. -/
theorem mergeA_perm (v : Nat → List Nat) :
    ∀ (a b : List Nat), List.Perm (mergeA v a b) (a ++ b) := by
  intro a
  induction a with
  | nil => intro b; rw [mergeA_nil_left]; simp
  | cons x fs ihf =>
      intro b
      induction b with
      | nil => rw [mergeA_nil_right]; simp
      | cons y bs ihb =>
          rw [mergeA_cons2]
          by_cases hc : 0 < strcmp (v x) (v y)
          · rw [if_pos hc]
            exact List.Perm.trans (List.Perm.cons y ihb) List.perm_middle.symm
          · rw [if_neg hc]
            exact List.Perm.cons x (ihf (y :: bs))

theorem msortA_of_short (v : Nat → List Nat) {l : List Nat} (hl : l.length ≤ 1) :
    msortA v l = l := by
  unfold msortA
  rw [dif_pos hl]

theorem msortA_of_long (v : Nat → List Nat) {l : List Nat} (hl : ¬l.length ≤ 1) :
    msortA v l = mergeA v (msortA v (l.take ((l.length + 1) / 2)))
      (msortA v (l.drop ((l.length + 1) / 2))) := by
  conv =>
    left
    unfold msortA
  rw [dif_neg hl]

/-- The list merge sort permutes its input. -/
theorem msortA_perm_aux (v : Nat → List Nat) :
    ∀ (n : Nat) (l : List Nat), l.length ≤ n → List.Perm (msortA v l) l := by
  intro n
  induction n with
  | zero =>
      intro l hl
      rw [msortA_of_short v (by omega)]
  | succ n ih =>
      intro l hl
      by_cases hshort : l.length ≤ 1
      · rw [msortA_of_short v hshort]
      · rw [msortA_of_long v hshort]
        have hk1 : (l.take ((l.length + 1) / 2)).length ≤ n := by
          simp only [List.length_take]
          omega
        have hk2 : (l.drop ((l.length + 1) / 2)).length ≤ n := by
          simp only [List.length_drop]
          omega
        refine List.Perm.trans (mergeA_perm v _ _) ?_
        refine List.Perm.trans (List.Perm.append (ih _ hk1) (ih _ hk2)) ?_
        rw [List.take_append_drop]

theorem msortA_perm (v : Nat → List Nat) (l : List Nat) :
    List.Perm (msortA v l) l := msortA_perm_aux v l.length l le_rfl

/-- The slow/fast walk stops with slow at the element half the fast
distance into its own suffix. -/
theorem splitWalk_spec {h : Heap} :
    ∀ (fuel : Nat) (u w : List Nat) (slow fast : Nat),
      isChain h slow u → isChain h fast w →
      w.length ≤ u.length → w.length / 2 ≤ fuel →
      splitWalk h fuel slow fast = (u.drop (w.length / 2)).headD 0 := by
  intro fuel
  induction fuel with
  | zero =>
      intro u w slow fast hu hw hlen hf
      have hw1 : w.length / 2 = 0 := by omega
      rw [hw1]
      simp only [splitWalk, List.drop_zero]
      exact isChain_headD hu
  | succ fuel ih =>
      intro u w slow fast hu hw hlen hf
      match w, hw with
      | [], hw =>
          have hfast : fast = 0 := hw
          rw [splitWalk, if_pos (Or.inl hfast)]
          simpa using isChain_headD hu
      | [x], hw =>
          have hnx : h.next x = 0 := hw.2.2
          have hfast : fast = x := hw.1
          rw [splitWalk, if_pos (Or.inr (by rw [hfast]; exact hnx))]
          simpa using isChain_headD hu
      | x :: y :: w2, hw =>
          obtain ⟨hfx, hx0, hw'⟩ := hw
          obtain ⟨hhy, hy0, hw''⟩ := hw'
          match u, hu with
          | su :: u', hu =>
              obtain ⟨hss, hs0, hu'⟩ := hu
              have hguard : ¬(fast = 0 ∨ h.next fast = 0) := by
                push_neg
                constructor
                · rw [hfx]; exact hx0
                · rw [hfx, hhy]; exact hy0
              rw [splitWalk, if_neg hguard]
              have hrec := ih u' w2 (h.next slow) (h.next (h.next fast))
                (by rw [hss]; exact hu') (by rw [hfx, hhy]; exact hw'')
                (by simp at hlen ⊢; omega) (by simp at hf ⊢; omega)
              rw [hrec]
              have hidx : (x :: y :: w2).length / 2 = w2.length / 2 + 1 := by
                simp; omega
              rw [hidx]
              rfl

/-- Function sorted_merge builds the chain of the list-level merge of the two
input chains, touching only next fields of the merged elements. -/
theorem sorted_merge_spec :
    ∀ (fuel : Nat) (lf lb : List Nat) (h : Heap) (f b : Nat),
      isChain h f lf → isChain h b lb → (lf ++ lb).Nodup →
      lf.length + lb.length ≤ fuel →
      isChain (sorted_merge fuel h f b).1 (sorted_merge fuel h f b).2 (mergeA h.val lf lb) ∧
      (∀ y, y ∉ lf → y ∉ lb → (sorted_merge fuel h f b).1.next y = h.next y) ∧
      (sorted_merge fuel h f b).1.prev = h.prev ∧
      (sorted_merge fuel h f b).1.val = h.val := by
  intro fuel
  induction fuel with
  | zero =>
      intro lf lb h f b hf hb hnd hlen
      have h1 : lf = [] := by
        cases lf with
        | nil => rfl
        | cons a t => simp at hlen
      have h2 : lb = [] := by
        cases lb with
        | nil => rfl
        | cons a t => rw [h1] at hlen; simp at hlen
      subst h1; subst h2
      have hf0 : f = 0 := hf
      have hb0 : b = 0 := hb
      subst hf0; subst hb0
      refine ⟨?_, fun y _ _ => rfl, rfl, rfl⟩
      rw [mergeA_nil_left]
      show (sorted_merge 0 h 0 0).2 = 0
      simp [sorted_merge]
  | succ fuel ih =>
      intro lf lb h f b hf hb hnd hlen
      match lf, hf with
      | [], hf =>
          have hf0 : f = 0 := hf
          subst hf0
          rw [sorted_merge, if_pos (Or.inl rfl)]
          refine ⟨?_, fun y _ _ => rfl, rfl, rfl⟩
          rw [mergeA_nil_left]
          simpa using hb
      | fx :: fs, hf =>
          obtain ⟨hf1, hfx0, hfs⟩ := hf
          match lb, hb with
          | [], hb =>
              have hb0 : b = 0 := hb
              subst hb0
              rw [sorted_merge, if_pos (Or.inr rfl)]
              refine ⟨?_, fun y _ _ => rfl, rfl, rfl⟩
              rw [mergeA_nil_right]
              have hfne : f ≠ 0 := by rw [hf1]; exact hfx0
              simp only [if_pos hfne]
              exact ⟨hf1, hfx0, hfs⟩
          | bx :: bs, hb =>
              obtain ⟨hb1, hbx0, hbs⟩ := hb
              have hguard : ¬(f = 0 ∨ b = 0) := by
                push_neg
                exact ⟨by rw [hf1]; exact hfx0, by rw [hb1]; exact hbx0⟩
              subst hf1; subst hb1
              have hmid := List.nodup_middle.1 hnd
              have hbxmem : b ∉ (f :: fs) ++ bs := (List.nodup_cons.1 hmid).1
              have hnd1 : ((f :: fs) ++ bs).Nodup := (List.nodup_cons.1 hmid).2
              have hfxmem : f ∉ fs ++ b :: bs :=
                (List.nodup_cons.1 (show (f :: (fs ++ b :: bs)).Nodup from hnd)).1
              have hnd2 : (fs ++ b :: bs).Nodup :=
                (List.nodup_cons.1 (show (f :: (fs ++ b :: bs)).Nodup from hnd)).2
              rw [sorted_merge, if_neg hguard]
              by_cases hcmp : 0 < strcmp (h.val f) (h.val b)
              · rw [if_pos hcmp]
                have hrec := ih (f :: fs) bs h f (h.next b) ⟨rfl, hfx0, hfs⟩ hbs hnd1
                  (by simp at hlen ⊢; omega)
                rw [mergeA_cons2, if_pos hcmp]
                refine ⟨⟨rfl, hbx0, ?_⟩, ?_, ?_, ?_⟩
                · rw [setN_next, if_pos rfl]
                  refine @isChain_congr (sorted_merge fuel h f (h.next b)).1 _ _ _ ?_ hrec.1
                  intro y hy
                  have hybx : y ≠ b := by
                    intro hc; subst hc
                    exact hbxmem ((mergeA_perm h.val (f :: fs) bs).mem_iff.1 hy)
                  rw [setN_next, if_neg hybx]
                · intro y hyf hyb
                  have hybx : y ≠ b := fun hc => hyb (by rw [hc]; simp)
                  rw [setN_next, if_neg hybx]
                  exact hrec.2.1 y hyf (fun hc => hyb (by simp [hc]))
                · rw [setN_prev]; exact hrec.2.2.1
                · rw [setN_val]; exact hrec.2.2.2
              · rw [if_neg hcmp]
                have hrec := ih fs (b :: bs) h (h.next f) b hfs ⟨rfl, hbx0, hbs⟩ hnd2
                  (by simp at hlen ⊢; omega)
                rw [mergeA_cons2, if_neg hcmp]
                refine ⟨⟨rfl, hfx0, ?_⟩, ?_, ?_, ?_⟩
                · rw [setN_next, if_pos rfl]
                  refine @isChain_congr (sorted_merge fuel h (h.next f) b).1 _ _ _ ?_ hrec.1
                  intro y hy
                  have hyfx : y ≠ f := by
                    intro hc; subst hc
                    exact hfxmem ((mergeA_perm h.val fs (b :: bs)).mem_iff.1 hy)
                  rw [setN_next, if_neg hyfx]
                · intro y hyf hyb
                  have hyfx : y ≠ f := fun hc => hyf (by rw [hc]; simp)
                  rw [setN_next, if_neg hyfx]
                  exact hrec.2.1 y (fun hc => hyf (by simp [hc])) hyb
                · rw [setN_prev]; exact hrec.2.2.1
                · rw [setN_val]; exact hrec.2.2.2

theorem merge_sort_eq (fuel : Nat) (h : Heap) (a : Nat) (hg : ¬(a = 0 ∨ h.next a = 0)) :
    merge_sort (fuel + 1) h a =
      sorted_merge fuel
        (merge_sort fuel
          (merge_sort fuel (setN h (splitWalk h fuel a (h.next a)) 0) a).1
          (h.next (splitWalk h fuel a (h.next a)))).1
        (merge_sort fuel (setN h (splitWalk h fuel a (h.next a)) 0) a).2
        (merge_sort fuel
          (merge_sort fuel (setN h (splitWalk h fuel a (h.next a)) 0) a).1
          (h.next (splitWalk h fuel a (h.next a)))).2 := by
  rw [merge_sort, if_neg hg]

/-- Function merge_sort builds the chain of the list-level merge sort,
touching only next fields of the chain elements. -/
theorem merge_sort_spec :
    ∀ (fuel : Nat) (l : List Nat) (h : Heap) (a : Nat),
      isChain h a l → l.Nodup → 2 * l.length ≤ fuel →
      isChain (merge_sort fuel h a).1 (merge_sort fuel h a).2 (msortA h.val l) ∧
      (∀ y, y ∉ l → (merge_sort fuel h a).1.next y = h.next y) ∧
      (merge_sort fuel h a).1.prev = h.prev ∧
      (merge_sort fuel h a).1.val = h.val := by
  intro fuel
  induction fuel with
  | zero =>
      intro l h a hc hnd hlen
      have hl : l = [] := by
        cases l with
        | nil => rfl
        | cons z t => simp at hlen
      subst hl
      rw [msortA_of_short _ (by simp)]
      exact ⟨hc, fun y _ => rfl, rfl, rfl⟩
  | succ fuel ih =>
      intro l h a hc hnd hlen
      match l, hc with
      | [], hc =>
          have ha : a = 0 := hc
          rw [merge_sort, if_pos (Or.inl ha)]
          rw [msortA_of_short _ (by simp)]
          exact ⟨hc, fun y _ => rfl, rfl, rfl⟩
      | [x], hc =>
          obtain ⟨hax, hx0, hrest⟩ := hc
          rw [merge_sort, if_pos (Or.inr (by rw [hax]; exact hrest))]
          rw [msortA_of_short _ (by simp)]
          exact ⟨⟨hax, hx0, hrest⟩, fun y _ => rfl, rfl, rfl⟩
      | x :: y :: t, hc =>
          obtain ⟨hax, hx0, hc'⟩ := hc
          obtain ⟨hhy, hy0, hc''⟩ := hc'
          have hcfull : isChain h a (x :: y :: t) := ⟨hax, hx0, hhy, hy0, hc''⟩
          have hguard : ¬(a = 0 ∨ h.next a = 0) := by
            push_neg
            exact ⟨by rw [hax]; exact hx0, by rw [hax, hhy]; exact hy0⟩
          -- slow pointer value
          have htail : isChain h (h.next a) (y :: t) := by
            rw [hax]; exact ⟨hhy, hy0, hc''⟩
          have ht1 : (y :: t).length / 2 < (x :: y :: t).length := by simp; omega
          have hslow : splitWalk h fuel a (h.next a) =
              (x :: y :: t).get ⟨(y :: t).length / 2, ht1⟩ := by
            rw [splitWalk_spec fuel (x :: y :: t) (y :: t) a (h.next a) hcfull htail
              (by simp) (by simp at hlen ⊢; omega)]
            exact headD_drop ht1
          -- front and back parts
          have hk1 : 1 ≤ (y :: t).length / 2 + 1 := by omega
          have hk2 : (y :: t).length / 2 + 1 ≤ (x :: y :: t).length := by simp; omega
          have hslow2 : splitWalk h fuel a (h.next a) =
              ((x :: y :: t).take ((y :: t).length / 2 + 1)).getLast (by
                intro hcontra
                have hlc := congrArg List.length hcontra
                simp only [List.length_take, List.length_nil] at hlc
                omega) := by
            rw [hslow, getLast_take hk1 hk2]
            simp
          have hsplit := isChain_split ((x :: y :: t).take ((y :: t).length / 2 + 1))
            ((x :: y :: t).drop ((y :: t).length / 2 + 1)) a (by
              intro hcontra
              have hlc := congrArg List.length hcontra
              simp only [List.length_take, List.length_nil] at hlc
              omega)
            (by rw [List.take_append_drop]; exact hcfull)
            (by rw [List.take_append_drop]; exact hnd)
          have hndF : ((x :: y :: t).take ((y :: t).length / 2 + 1)).Nodup :=
            (List.take_sublist _ _).nodup hnd
          have hndB : ((x :: y :: t).drop ((y :: t).length / 2 + 1)).Nodup :=
            (List.drop_sublist _ _).nodup hnd
          have hdisj : List.Disjoint ((x :: y :: t).take ((y :: t).length / 2 + 1))
              ((x :: y :: t).drop ((y :: t).length / 2 + 1)) :=
            List.disjoint_take_drop hnd le_rfl
          have hlenF : ((x :: y :: t).take ((y :: t).length / 2 + 1)).length =
              (y :: t).length / 2 + 1 := by
            simp only [List.length_take]
            simp
            omega
          have hlenB : ((x :: y :: t).drop ((y :: t).length / 2 + 1)).length =
              (x :: y :: t).length - ((y :: t).length / 2 + 1) := by
            simp only [List.length_drop]
          -- first recursive sort, on the front chain
          have hrec1 := ih ((x :: y :: t).take ((y :: t).length / 2 + 1))
            (setN h (splitWalk h fuel a (h.next a)) 0) a
            (by rw [hslow2]; exact hsplit.2.1) hndF
            (by rw [hlenF]; simp at hlen ⊢; omega)
          have hval1 : (merge_sort fuel (setN h (splitWalk h fuel a (h.next a)) 0) a).1.val =
              h.val := hrec1.2.2.2
          -- the back chain survives the first sort
          have hback1 : isChain (merge_sort fuel (setN h (splitWalk h fuel a (h.next a)) 0) a).1
              (((x :: y :: t).drop ((y :: t).length / 2 + 1)).headD 0)
              ((x :: y :: t).drop ((y :: t).length / 2 + 1)) := by
            refine @isChain_congr (setN h (splitWalk h fuel a (h.next a)) 0) _ _ _ ?_
              (by rw [hslow2]; exact hsplit.2.2)
            intro z hz
            exact hrec1.2.1 z (fun hzF => hdisj hzF hz)
          have hbk : h.next (splitWalk h fuel a (h.next a)) =
              ((x :: y :: t).drop ((y :: t).length / 2 + 1)).headD 0 := by
            rw [hslow2]; exact hsplit.1
          -- second recursive sort, on the back chain
          have hrec2 := ih ((x :: y :: t).drop ((y :: t).length / 2 + 1))
            (merge_sort fuel (setN h (splitWalk h fuel a (h.next a)) 0) a).1
            (((x :: y :: t).drop ((y :: t).length / 2 + 1)).headD 0)
            hback1 hndB
            (by rw [hlenB]; simp at hlen ⊢; omega)
          have hval2 : (merge_sort fuel
              (merge_sort fuel (setN h (splitWalk h fuel a (h.next a)) 0) a).1
              (((x :: y :: t).drop ((y :: t).length / 2 + 1)).headD 0)).1.val = h.val := by
            rw [hrec2.2.2.2, hval1]
          -- the sorted front chain survives the second sort
          have hfront2 : isChain (merge_sort fuel
              (merge_sort fuel (setN h (splitWalk h fuel a (h.next a)) 0) a).1
              (((x :: y :: t).drop ((y :: t).length / 2 + 1)).headD 0)).1
              (merge_sort fuel (setN h (splitWalk h fuel a (h.next a)) 0) a).2
              (msortA h.val ((x :: y :: t).take ((y :: t).length / 2 + 1))) := by
            refine @isChain_congr
              (merge_sort fuel (setN h (splitWalk h fuel a (h.next a)) 0) a).1 _ _ _ ?_ ?_
            · intro z hz
              have hzF : z ∈ (x :: y :: t).take ((y :: t).length / 2 + 1) :=
                (msortA_perm h.val _).mem_iff.1 hz
              exact hrec2.2.1 z (fun hzB => hdisj hzF hzB)
            · have := hrec1.1
              rw [setN_val] at this
              exact this
          have hchain2 : isChain (merge_sort fuel
              (merge_sort fuel (setN h (splitWalk h fuel a (h.next a)) 0) a).1
              (((x :: y :: t).drop ((y :: t).length / 2 + 1)).headD 0)).1
              (merge_sort fuel
                (merge_sort fuel (setN h (splitWalk h fuel a (h.next a)) 0) a).1
                (((x :: y :: t).drop ((y :: t).length / 2 + 1)).headD 0)).2
              (msortA h.val ((x :: y :: t).drop ((y :: t).length / 2 + 1))) := by
            have := hrec2.1
            rw [hrec1.2.2.2, setN_val] at this
            exact this
          -- nodup of the two sorted parts together
          have hpermFB : List.Perm
              (msortA h.val ((x :: y :: t).take ((y :: t).length / 2 + 1)) ++
                msortA h.val ((x :: y :: t).drop ((y :: t).length / 2 + 1)))
              (x :: y :: t) := by
            refine List.Perm.trans (List.Perm.append (msortA_perm _ _) (msortA_perm _ _)) ?_
            rw [List.take_append_drop]
          have hndFB : (msortA h.val ((x :: y :: t).take ((y :: t).length / 2 + 1)) ++
              msortA h.val ((x :: y :: t).drop ((y :: t).length / 2 + 1))).Nodup :=
            hpermFB.nodup_iff.2 hnd
          have hlenFB : (msortA h.val ((x :: y :: t).take ((y :: t).length / 2 + 1))).length +
              (msortA h.val ((x :: y :: t).drop ((y :: t).length / 2 + 1))).length ≤ fuel := by
            rw [(msortA_perm h.val _).length_eq, (msortA_perm h.val _).length_eq,
              hlenF, hlenB]
            simp at hlen ⊢
            omega
          have hmerge := sorted_merge_spec fuel
            (msortA h.val ((x :: y :: t).take ((y :: t).length / 2 + 1)))
            (msortA h.val ((x :: y :: t).drop ((y :: t).length / 2 + 1)))
            (merge_sort fuel
              (merge_sort fuel (setN h (splitWalk h fuel a (h.next a)) 0) a).1
              (((x :: y :: t).drop ((y :: t).length / 2 + 1)).headD 0)).1
            (merge_sort fuel (setN h (splitWalk h fuel a (h.next a)) 0) a).2
            (merge_sort fuel
              (merge_sort fuel (setN h (splitWalk h fuel a (h.next a)) 0) a).1
              (((x :: y :: t).drop ((y :: t).length / 2 + 1)).headD 0)).2
            hfront2 hchain2 hndFB hlenFB
          have hmsort : msortA h.val (x :: y :: t) =
              mergeA h.val (msortA h.val ((x :: y :: t).take ((y :: t).length / 2 + 1)))
                (msortA h.val ((x :: y :: t).drop ((y :: t).length / 2 + 1))) := by
            rw [msortA_of_long _ (by simp)]
            have hkk : ((x :: y :: t).length + 1) / 2 = (y :: t).length / 2 + 1 := by
              simp
              omega
            rw [hkk]
          rw [merge_sort_eq fuel h a hguard, hbk, hmsort]
          refine ⟨?_, ?_, ?_, ?_⟩
          · have := hmerge.1
            rw [hval2] at this
            exact this
          · intro z hz
            have hzF : z ∉ msortA h.val ((x :: y :: t).take ((y :: t).length / 2 + 1)) := by
              intro hcz
              exact hz ((List.take_sublist _ _).mem ((msortA_perm h.val _).mem_iff.1 hcz))
            have hzB : z ∉ msortA h.val ((x :: y :: t).drop ((y :: t).length / 2 + 1)) := by
              intro hcz
              exact hz ((List.drop_sublist _ _).mem ((msortA_perm h.val _).mem_iff.1 hcz))
            rw [hmerge.2.1 z hzF hzB]
            rw [hrec2.2.1 z (fun hcz => hz ((List.drop_sublist _ _).mem hcz))]
            rw [hrec1.2.1 z (fun hcz => hz ((List.take_sublist _ _).mem hcz))]
            rw [setN_next, if_neg ?_]
            intro hcz
            apply hz
            rw [hcz, hslow]
            exact List.get_mem _ _ _
          · rw [hmerge.2.2.1, hrec2.2.2.1, hrec1.2.2.1, setN_prev]
          · rw [hmerge.2.2.2, hval2]

/-- A ring cut open behind the sentinel becomes a null-terminated chain. -/
theorem seg_to_chain {h : Heap} :
    ∀ (u : List Nat) (a s : Nat) (hne : u ≠ []), seg h a u s → u.Nodup → 0 ∉ u →
      isChain (setN h (u.getLast hne) 0) (u.headD 0) u := by
  intro u
  induction u with
  | nil => intro a s hne; exact absurd rfl hne
  | cons x u ih =>
      intro a s _ hseg hnd h0
      cases u with
      | nil =>
          refine ⟨rfl, fun hc => h0 (by simp [hc]), ?_⟩
          show isChain (setN h x 0) ((setN h x 0).next x) []
          rw [isChain_nil, setN_next, if_pos rfl]
      | cons y t =>
          obtain ⟨_, hseg'⟩ := hseg
          have hglast : ((x :: y :: t).getLast (by simp)) = ((y :: t).getLast (by simp)) :=
            List.getLast_cons (by simp)
          have hxg : x ≠ (y :: t).getLast (by simp) := by
            intro hc
            have hmem : (y :: t).getLast (by simp) ∈ y :: t := List.getLast_mem _
            rw [← hc] at hmem
            exact (List.nodup_cons.1 hnd).1 hmem
          have hxy : h.next x = y := hseg'.1.1
          rw [hglast]
          refine ⟨rfl, fun hc => h0 (by simp [hc]), ?_⟩
          rw [setN_next, if_neg hxg, hxy]
          have hih := ih x s (by simp) hseg' (List.nodup_cons.1 hnd).2
            (fun hc => h0 (by simp [hc]))
          exact hih

/-- Cutting the ring open by zeroing the next field of the last element gives
a chain from the first element over the whole traversal order. -/
theorem ring_cut {h : Heap} {s : Nat} {l : List Nat} (hr : isRing h s l) (hne : l ≠ []) :
    isChain (setN h (h.prev s) 0) (h.next s) l := by
  have hp : h.prev s = l.getLast hne := by
    rw [ring_prev_sentinel hr, List.getLast_cons hne]
  have hx : h.next s = l.headD 0 := by
    cases l with
    | nil => exact absurd rfl hne
    | cons z t => exact (ring_next_sentinel_cons hr).1
  rw [hp, hx]
  exact seg_to_chain l s s hne hr.2.2 (List.nodup_cons.1 hr.1).2
    (fun hc => hr.2.1 (by simp [hc]))

/-- An adjacent ring-relation chain with a closing relation at the last node
is exactly a segment. -/
theorem chain'_to_seg {h : Heap} :
    ∀ (u : List Nat) (a b : Nat), List.Chain' (ringRel h) (a :: u) →
      ringRel h ((a :: u).getLast (by simp)) b → seg h a u b := by
  intro u
  induction u with
  | nil => intro a b _ hlast; exact hlast
  | cons x u ih =>
      intro a b hchain hlast
      rw [List.chain'_cons] at hchain
      refine ⟨hchain.1, ih x b hchain.2 ?_⟩
      rw [← @List.getLast_cons Nat a (x :: u) (by simp)]
      exact hlast

/-- Adjacent ring relations transfer to a heap that may differ only in the
next field of one address absent from the non-last positions and the prev
field of one address absent from the non-first positions. -/
theorem chain'_heap_step {h h' : Heap} (g s0 : Nat)
    (hn : ∀ p, p ≠ g → h'.next p = h.next p)
    (hp : ∀ q, q ≠ s0 → h'.prev q = h.prev q) :
    ∀ (L : List Nat), g ∉ L.dropLast → s0 ∉ L.tail →
      List.Chain' (ringRel h) L → List.Chain' (ringRel h') L := by
  intro L
  induction L with
  | nil => intro _ _ _; exact List.chain'_nil
  | cons a L ihL =>
      intro hg hs hchain
      cases L with
      | nil => exact List.chain'_singleton a
      | cons b L2 =>
          rw [List.chain'_cons] at hchain ⊢
          have hag : a ≠ g := by
            intro hc
            apply hg
            rw [← hc]
            simp [List.dropLast]
          have hbs : b ≠ s0 := by
            intro hc
            apply hs
            rw [← hc]
            simp
          refine ⟨⟨?_, ?_⟩, ?_⟩
          · rw [hn a hag]; exact hchain.1.1
          · rw [hp b hbs]; exact hchain.1.2
          · refine ihL ?_ ?_ hchain.2
            · intro hc
              apply hg
              rw [List.dropLast_cons₂]
              exact List.mem_cons_of_mem a hc
            · intro hc
              apply hs
              exact List.mem_cons_of_mem b hc

/-- The last element of a nodup list does not occur before the last
position. -/
theorem getLast_not_mem_dropLast (L : List Nat) (hne : L ≠ []) (hnd : L.Nodup) :
    L.getLast hne ∉ L.dropLast := by
  intro hmem
  have hsplit := List.dropLast_append_getLast hne
  rw [← hsplit] at hnd
  rcases List.nodup_append.1 hnd with ⟨_, _, hdisj⟩
  exact hdisj hmem (by simp)

/-- Rethreading walk of q_sort: next pointers and values are untouched, prev
pointers off the chain are untouched, the walk ends at the last chain node
and every adjacent pair along the walk has consistent next/prev pointers. -/
theorem rethreadWalk_spec :
    ∀ (fuel : Nat) (suffix : List Nat) (h : Heap) (tmp : Nat),
      isChain h (h.next tmp) suffix → tmp ∉ suffix → suffix.Nodup →
      suffix.length ≤ fuel →
      (rethreadWalk fuel h tmp).1.next = h.next ∧
      (rethreadWalk fuel h tmp).1.val = h.val ∧
      (∀ y, y ∉ suffix → (rethreadWalk fuel h tmp).1.prev y = h.prev y) ∧
      (rethreadWalk fuel h tmp).2 = (tmp :: suffix).getLast (by simp) ∧
      List.Chain' (ringRel (rethreadWalk fuel h tmp).1) (tmp :: suffix) := by
  intro fuel
  induction fuel with
  | zero =>
      intro suffix h tmp hc htmp hnd hlen
      have hsuf : suffix = [] := List.length_eq_zero.1 (Nat.le_zero.1 hlen)
      subst hsuf
      exact ⟨rfl, rfl, fun y _ => rfl, rfl, List.chain'_singleton tmp⟩
  | succ fuel ih =>
      intro suffix h tmp hc htmp hnd hlen
      cases suffix with
      | nil =>
          have h0 : h.next tmp = 0 := hc
          rw [rethreadWalk, if_pos h0]
          exact ⟨rfl, rfl, fun y _ => rfl, rfl, List.chain'_singleton tmp⟩
      | cons x rest =>
          obtain ⟨hx1, hx0, hrest⟩ := hc
          have hxrest : x ∉ rest := (List.nodup_cons.1 hnd).1
          rw [rethreadWalk, if_neg (by rw [hx1]; exact hx0), hx1]
          have hih := ih rest (setP h x tmp) x (isChain_setP hrest) hxrest
            (List.nodup_cons.1 hnd).2 (by simpa using Nat.le_of_succ_le_succ hlen)
          refine ⟨?_, ?_, ?_, ?_, ?_⟩
          · exact hih.1
          · exact hih.2.1
          · intro y hy
            have hyx : y ≠ x := by
              intro hcy; apply hy; rw [hcy]; simp
            have hyrest : y ∉ rest := fun hcy => hy (by simp [hcy])
            rw [hih.2.2.1 y hyrest, setP_prev, if_neg hyx]
          · rw [hih.2.2.2.1, @List.getLast_cons Nat tmp (x :: rest) (by simp)]
          · rw [List.chain'_cons]
            refine ⟨⟨?_, ?_⟩, hih.2.2.2.2⟩
            · rw [hih.1]
              show (setP h x tmp).next tmp = x
              exact hx1
            · rw [hih.2.2.1 x hxrest, setP_prev, if_pos rfl]

theorem q_sort_eq (h : Heap) (s fuel : Nat)
    (hg : (list_empty h s || list_is_singular h s) = false) :
    q_sort h (some s) fuel =
      setP (setN (rethreadWalk fuel (setN (merge_sort fuel (setN h (h.prev s) 0)
          ((setN h (h.prev s) 0).next s)).1 s
          (merge_sort fuel (setN h (h.prev s) 0) ((setN h (h.prev s) 0).next s)).2) s).1
        (rethreadWalk fuel (setN (merge_sort fuel (setN h (h.prev s) 0)
          ((setN h (h.prev s) 0).next s)).1 s
          (merge_sort fuel (setN h (h.prev s) 0) ((setN h (h.prev s) 0).next s)).2) s).2 s)
        s
        (rethreadWalk fuel (setN (merge_sort fuel (setN h (h.prev s) 0)
          ((setN h (h.prev s) 0).next s)).1 s
          (merge_sort fuel (setN h (h.prev s) 0) ((setN h (h.prev s) 0).next s)).2) s).2 := by
  simp only [q_sort, hg, Bool.false_eq_true, if_false]

/-- Operation q_sort: on a ring of at least two elements the traversal order
becomes the list-level merge sort of the old order; no value changes; a null,
empty or singular ring is returned untouched. -/
theorem q_sort_spec {h : Heap} {s : Nat} {l : List Nat} (hr : isRing h s l)
    {fuel : Nat} (hf : 2 * l.length ≤ fuel) :
    isRing (q_sort h (some s) fuel) s (msortA h.val l) ∧
    (q_sort h (some s) fuel).val = h.val ∧
    (l = [] → q_sort h (some s) fuel = h) ∧
    (∀ x, l = [x] → q_sort h (some s) fuel = h) ∧
    q_sort h none fuel = h := by
  by_cases hshort : l.length ≤ 1
  · have hguard : (list_empty h s || list_is_singular h s) = true := by
      cases l with
      | nil => rw [(ring_list_empty hr).2 rfl]; simp
      | cons x t =>
          cases t with
          | nil =>
              rw [(ring_list_singular hr).2 ⟨x, rfl⟩]
              simp
          | cons y t2 => simp at hshort
    have hid : q_sort h (some s) fuel = h := by
      simp only [q_sort, hguard, if_true]
    rw [hid, msortA_of_short _ hshort]
    exact ⟨hr, rfl, fun _ => rfl, fun _ _ => rfl, rfl⟩
  · have hne : l ≠ [] := by
      intro hc; rw [hc] at hshort; simp at hshort
    have hndl : l.Nodup := (List.nodup_cons.1 hr.1).2
    have hempty : list_empty h s = false := by
      cases l with
      | nil => exact absurd rfl hne
      | cons x t => exact ring_list_empty_false hr
    have hsing : list_is_singular h s = false := by
      rw [← Bool.not_eq_true]
      intro hc
      obtain ⟨x, hx⟩ := (ring_list_singular hr).1 hc
      rw [hx] at hshort
      simp at hshort
    have hguard : (list_empty h s || list_is_singular h s) = false := by
      rw [hempty, hsing]; rfl
    have hps : h.prev s = l.getLast hne := by
      rw [ring_prev_sentinel hr, List.getLast_cons hne]
    have hsps : s ≠ h.prev s := by
      rw [hps]
      intro hc
      exact (List.nodup_cons.1 hr.1).1 (hc ▸ List.getLast_mem hne)
    have hnexts : (setN h (h.prev s) 0).next s = h.next s := by
      rw [setN_next, if_neg hsps]
    have hcut : isChain (setN h (h.prev s) 0) ((setN h (h.prev s) 0).next s) l := by
      rw [hnexts]; exact ring_cut hr hne
    set h0 := setN h (h.prev s) 0 with hh0def
    have hms := merge_sort_spec fuel l h0 (h0.next s) hcut hndl hf
    set ms := merge_sort fuel h0 (h0.next s) with hmsdef
    have hmschain : isChain ms.1 ms.2 (msortA h.val l) := hms.1
    have hmsval : ms.1.val = h.val := hms.2.2.2
    have hsnotl' : s ∉ msortA h.val l := by
      intro hc
      exact (List.nodup_cons.1 hr.1).1 ((msortA_perm _ _).mem_iff.1 hc)
    have hndl' : (msortA h.val l).Nodup := (msortA_perm _ _).nodup_iff.2 hndl
    set h2 := setN ms.1 s ms.2 with hh2def
    have hchain2 : isChain h2 (h2.next s) (msortA h.val l) := by
      have h2n : h2.next s = ms.2 := by rw [hh2def, setN_next, if_pos rfl]
      rw [h2n]
      refine @isChain_congr ms.1 _ _ _ ?_ hmschain
      intro z hz
      have hzs : z ≠ s := fun hc => hsnotl' (hc ▸ hz)
      rw [hh2def, setN_next, if_neg hzs]
    have hw := rethreadWalk_spec fuel (msortA h.val l) h2 s hchain2 hsnotl' hndl'
      (by rw [(msortA_perm h.val l).length_eq]; omega)
    set w := rethreadWalk fuel h2 s with hwdef
    have hq : q_sort h (some s) fuel = setP (setN w.1 w.2 s) s w.2 :=
      q_sort_eq h s fuel hguard
    have hfin_val : (setP (setN w.1 w.2 s) s w.2).val = h.val := by
      show w.1.val = h.val
      rw [hw.2.1]
      show ms.1.val = h.val
      exact hmsval
    have hlast := hw.2.2.2.1
    refine ⟨?_, by rw [hq]; exact hfin_val, fun hc => absurd hc hne,
      fun x hx => by rw [hx] at hshort; simp at hshort, rfl⟩
    rw [hq]
    refine ⟨?_, ?_, ?_⟩
    · exact List.nodup_cons.2 ⟨hsnotl', hndl'⟩
    · intro hc
      rcases List.mem_cons.1 hc with h1 | h1
      · exact hr.2.1 (by simp [h1])
      · exact hr.2.1 (List.mem_cons_of_mem s ((msortA_perm _ _).mem_iff.1 h1))
    · refine chain'_to_seg (msortA h.val l) s s ?_ ?_
      · refine chain'_heap_step w.2 s ?_ ?_ (s :: msortA h.val l) ?_ ?_ hw.2.2.2.2
        · intro p hp
          show (setN w.1 w.2 s).next p = w.1.next p
          rw [setN_next, if_neg hp]
        · intro q hq2
          show (setP (setN w.1 w.2 s) s w.2).prev q = w.1.prev q
          rw [setP_prev, if_neg hq2]
          rfl
        · rw [hlast]
          exact getLast_not_mem_dropLast _ (by simp) (List.nodup_cons.2 ⟨hsnotl', hndl'⟩)
        · exact hsnotl'
      · rw [← hlast]
        constructor
        · show (setN w.1 w.2 s).next w.2 = s
          rw [setN_next, if_pos rfl]
        · show (setP (setN w.1 w.2 s) s w.2).prev s = w.2
          rw [setP_prev, if_pos rfl]

theorem strcmp_refl : ∀ (a : List Nat), strcmp a a = 0 := by
  intro a
  induction a with
  | nil => rfl
  | cons x as ih => simp [strcmp, ih]

theorem strcmp_neg : ∀ (a b : List Nat), strcmp a b = -strcmp b a := by
  intro a
  induction a with
  | nil =>
      intro b
      cases b with
      | nil => rfl
      | cons y bs => simp [strcmp]
  | cons x as ih =>
      intro b
      cases b with
      | nil => simp [strcmp]
      | cons y bs =>
          simp only [strcmp]
          by_cases hxy : x = y
          · subst hxy
            rw [if_pos rfl, if_pos rfl]
            exact ih bs
          · rw [if_neg hxy, if_neg (fun hc => hxy hc.symm)]
            omega

theorem strcmp_nil_le (b : List Nat) : strcmp [] b ≤ 0 := by
  cases b with
  | nil => exact le_refl 0
  | cons y bs => simp [strcmp]

theorem strcmp_eq_zero_iff :
    ∀ {a b : List Nat}, NFStr a → NFStr b → (strcmp a b = 0 ↔ a = b) := by
  intro a
  induction a with
  | nil =>
      intro b ha hb
      cases b with
      | nil => simp [strcmp]
      | cons y bs =>
          have hy : 0 < y := hb y (by simp)
          simp [strcmp]
          omega
  | cons x as ih =>
      intro b ha hb
      cases b with
      | nil =>
          have hx : 0 < x := ha x (by simp)
          simp [strcmp]
          omega
      | cons y bs =>
          simp only [strcmp]
          by_cases hxy : x = y
          · subst hxy
            rw [if_pos rfl]
            rw [ih (fun z hz => ha z (by simp [hz])) (fun z hz => hb z (by simp [hz]))]
            simp
          · rw [if_neg hxy]
            constructor
            · intro hc
              exfalso
              apply hxy
              omega
            · intro hc
              exact absurd (by injection hc) hxy

theorem strcmp_le_antisymm {a b : List Nat} (h1 : strcmp a b ≤ 0) (h2 : strcmp b a ≤ 0) :
    strcmp a b = 0 := by
  rw [strcmp_neg] at h1 ⊢
  omega

theorem strcmp_le_trans :
    ∀ {a b c : List Nat}, NFStr a → NFStr b → NFStr c →
      strcmp a b ≤ 0 → strcmp b c ≤ 0 → strcmp a c ≤ 0 := by
  intro a
  induction a with
  | nil => intro b c _ _ _ _ _; exact strcmp_nil_le c
  | cons x as ih =>
      intro b c ha hb hc hab hbc
      cases b with
      | nil =>
          exfalso
          have hx : 0 < x := ha x (by simp)
          simp [strcmp] at hab
          omega
      | cons y bs =>
          cases c with
          | nil =>
              exfalso
              have hy : 0 < y := hb y (by simp)
              simp [strcmp] at hbc
              omega
          | cons z cs =>
              simp only [strcmp] at hab hbc ⊢
              by_cases hxy : x = y
              · subst hxy
                rw [if_pos rfl] at hab
                by_cases hyz : x = z
                · subst hyz
                  rw [if_pos rfl] at hbc
                  rw [if_pos rfl]
                  exact ih (fun w hw => ha w (by simp [hw])) (fun w hw => hb w (by simp [hw]))
                    (fun w hw => hc w (by simp [hw])) hab hbc
                · rw [if_neg hyz] at hbc
                  rw [if_neg hyz]
                  omega
              · rw [if_neg hxy] at hab
                by_cases hyz : y = z
                · subst hyz
                  rw [if_neg hxy]
                  omega
                · rw [if_neg hyz] at hbc
                  by_cases hxz : x = z
                  · exfalso; omega
                  · rw [if_neg hxz]
                    omega

/-- Head of a sorted run is below every later element. -/
theorem chain_head_le {v : Nat → List Nat} :
    ∀ {xs : List Nat} {x : Nat}, (∀ z ∈ x :: xs, NFStr (v z)) →
      List.Chain' (fun a b => strcmp (v a) (v b) ≤ 0) (x :: xs) →
      ∀ z ∈ xs, strcmp (v x) (v z) ≤ 0 := by
  intro xs
  induction xs with
  | nil => intro x _ _ z hz; cases hz
  | cons y ys ih =>
      intro x hNF hch z hz
      rw [List.chain'_cons] at hch
      rcases List.mem_cons.1 hz with h1 | h1
      · rw [h1]; exact hch.1
      · refine strcmp_le_trans (hNF x (by simp)) (hNF y (by simp)) (hNF z (by simp [h1]))
          hch.1 (ih (fun w hw => hNF w (by simp at hw ⊢; tauto)) hch.2 z h1)

theorem mergeA_head_mem (v : Nat → List Nat) (a b : List Nat) (x : Nat)
    (hx : x ∈ (mergeA v a b).head?) : x ∈ a.head? ∨ x ∈ b.head? := by
  cases a with
  | nil => rw [mergeA_nil_left] at hx; exact Or.inr hx
  | cons f fs =>
      cases b with
      | nil => rw [mergeA_nil_right] at hx; exact Or.inl hx
      | cons y bs =>
          rw [mergeA_cons2] at hx
          by_cases hc : 0 < strcmp (v f) (v y)
          · rw [if_pos hc] at hx
            exact Or.inr (by simpa using hx)
          · rw [if_neg hc] at hx
            exact Or.inl (by simpa using hx)

/-- The merge of two sorted lists is sorted. -/
theorem mergeA_sorted (v : Nat → List Nat) :
    ∀ (a b : List Nat),
      List.Chain' (fun p q => strcmp (v p) (v q) ≤ 0) a →
      List.Chain' (fun p q => strcmp (v p) (v q) ≤ 0) b →
      List.Chain' (fun p q => strcmp (v p) (v q) ≤ 0) (mergeA v a b) := by
  intro a
  induction a with
  | nil => intro b _ hb; rw [mergeA_nil_left]; exact hb
  | cons f fs ihf =>
      intro b
      induction b with
      | nil => intro ha _; rw [mergeA_nil_right]; exact ha
      | cons y bs ihb =>
          intro ha hb
          rw [mergeA_cons2]
          by_cases hc : 0 < strcmp (v f) (v y)
          · rw [if_pos hc]
            rw [List.chain'_cons']
            constructor
            · intro z hz
              rcases mergeA_head_mem v (f :: fs) bs z hz with h1 | h1
              · have hzf : f = z := by simpa using h1
                rw [← hzf, strcmp_neg]
                omega
              · exact (List.chain'_cons'.1 hb).1 z h1
            · exact ihb ha hb.tail
          · rw [if_neg hc]
            rw [List.chain'_cons']
            constructor
            · intro z hz
              rcases mergeA_head_mem v fs (y :: bs) z hz with h1 | h1
              · exact (List.chain'_cons'.1 ha).1 z h1
              · have hzy : y = z := by simpa using h1
                rw [← hzy]
                omega
            · exact ihf (y :: bs) ha.tail hb

/-- Merge sort produces a non-decreasing chain under strcmp. -/
theorem msortA_sorted_aux (v : Nat → List Nat) :
    ∀ (n : Nat) (l : List Nat), l.length ≤ n →
      List.Chain' (fun p q => strcmp (v p) (v q) ≤ 0) (msortA v l) := by
  intro n
  induction n with
  | zero =>
      intro l hl
      have hnil : l = [] := List.length_eq_zero.mp (by omega)
      subst hnil
      rw [msortA_of_short v (by simp)]
      simp
  | succ n ih =>
      intro l hl
      by_cases hshort : l.length ≤ 1
      · rw [msortA_of_short v hshort]
        match l, hshort with
        | [], _ => simp
        | [x], _ => simp
      · rw [msortA_of_long v hshort]
        refine mergeA_sorted v _ _ (ih _ ?_) (ih _ ?_)
        · simp only [List.length_take]; omega
        · simp only [List.length_drop]; omega

theorem msortA_sorted (v : Nat → List Nat) (l : List Nat) :
    List.Chain' (fun p q => strcmp (v p) (v q) ≤ 0) (msortA v l) :=
  msortA_sorted_aux v l.length l le_rfl

/-- Merging two halves of an already sorted null-free sequence changes
nothing. -/
theorem mergeA_sorted_append (v : Nat → List Nat) :
    ∀ (a b : List Nat), (∀ z ∈ a ++ b, NFStr (v z)) →
      List.Chain' (fun p q => strcmp (v p) (v q) ≤ 0) (a ++ b) →
      mergeA v a b = a ++ b := by
  intro a
  induction a with
  | nil => intro b _ _; rw [mergeA_nil_left, List.nil_append]
  | cons f fs ih =>
      intro b hNF hch
      cases b with
      | nil => rw [mergeA_nil_right, List.append_nil]
      | cons y bs =>
          rw [List.cons_append] at hch
          have hle : strcmp (v f) (v y) ≤ 0 := by
            refine chain_head_le ?_ hch y (by simp)
            intro z hz
            exact hNF z (by rw [List.cons_append]; exact hz)
          rw [mergeA_cons2, if_neg (by omega), List.cons_append]
          congr 1
          refine ih (y :: bs) ?_ hch.tail
          intro z hz
          exact hNF z (by rw [List.cons_append]; exact List.mem_cons_of_mem f hz)

/-- Merge sort of an already sorted null-free sequence is the identity. -/
theorem msortA_of_sorted_aux (v : Nat → List Nat) :
    ∀ (n : Nat) (l : List Nat), l.length ≤ n → (∀ z ∈ l, NFStr (v z)) →
      List.Chain' (fun p q => strcmp (v p) (v q) ≤ 0) l →
      msortA v l = l := by
  intro n
  induction n with
  | zero =>
      intro l hl _ _
      exact msortA_of_short v (by omega)
  | succ n ih =>
      intro l hl hNF hch
      by_cases hshort : l.length ≤ 1
      · exact msortA_of_short v hshort
      · have hsplit := List.take_append_drop ((l.length + 1) / 2) l
        have hchsplit : List.Chain' (fun p q => strcmp (v p) (v q) ≤ 0)
            (l.take ((l.length + 1) / 2) ++ l.drop ((l.length + 1) / 2)) := by
          rw [hsplit]; exact hch
        have hNFsplit : ∀ z ∈ l.take ((l.length + 1) / 2) ++ l.drop ((l.length + 1) / 2),
            NFStr (v z) := by
          intro z hz
          exact hNF z (by rw [hsplit] at hz; exact hz)
        have hcht := (List.chain'_append.mp hchsplit).1
        have hchd := (List.chain'_append.mp hchsplit).2.1
        rw [msortA_of_long v hshort]
        rw [ih _ (by simp only [List.length_take]; omega)
          (fun z hz => hNFsplit z (List.mem_append_left _ hz)) hcht]
        rw [ih _ (by simp only [List.length_drop]; omega)
          (fun z hz => hNFsplit z (List.mem_append_right _ hz)) hchd]
        rw [mergeA_sorted_append v _ _ hNFsplit hchsplit, hsplit]

theorem msortA_of_sorted (v : Nat → List Nat) (l : List Nat)
    (hNF : ∀ z ∈ l, NFStr (v z))
    (hch : List.Chain' (fun p q => strcmp (v p) (v q) ≤ 0) l) :
    msortA v l = l :=
  msortA_of_sorted_aux v l.length l le_rfl hNF hch

/-- Merge sort is idempotent on null-free values. -/
theorem msortA_idem (v : Nat → List Nat) (l : List Nat)
    (hNF : ∀ z ∈ l, NFStr (v z)) :
    msortA v (msortA v l) = msortA v l :=
  msortA_of_sorted v (msortA v l)
    (fun z hz => hNF z ((msortA_perm v l).mem_iff.mp hz))
    (msortA_sorted v l)

theorem strcmp_lt_of_le_of_ne {a b : List Nat} (hNa : NFStr a) (hNb : NFStr b)
    (hle : strcmp a b ≤ 0) (hne : a ≠ b) : strcmp a b < 0 := by
  rcases lt_or_eq_of_le hle with h | h
  · exact h
  · exact absurd ((strcmp_eq_zero_iff hNa hNb).mp h) hne

theorem strcmp_lt_le_trans {a b c : List Nat} (hNa : NFStr a) (hNb : NFStr b)
    (hNc : NFStr c) (h1 : strcmp a b < 0) (h2 : strcmp b c ≤ 0) : strcmp a c < 0 := by
  have hle := strcmp_le_trans hNa hNb hNc (by omega) h2
  rcases lt_or_eq_of_le hle with hlt | heq
  · exact hlt
  · exfalso
    have hac : a = c := (strcmp_eq_zero_iff hNa hNc).mp heq
    subst hac
    rw [strcmp_neg] at h2
    omega

theorem strcmp_ne_of_lt {a b : List Nat} (h : strcmp a b < 0) : a ≠ b := by
  intro hc
  subst hc
  rw [strcmp_refl] at h
  omega

/-- The kept-element predicate of q_delete_dup on a sorted ring: keep an
element exactly when its value occurs once among the values of the ring. -/
def keepP (v : Nat → List Nat) (l : List Nat) (a : Nat) : Bool :=
  decide (List.count (v a) (l.map v) = 1)

theorem dropWhile_head_false (p : Nat → Bool) :
    ∀ (l : List Nat) {y : Nat} {ys : List Nat},
      l.dropWhile p = y :: ys → p y = false := by
  intro l
  induction l with
  | nil => intro y ys hc; cases hc
  | cons a t ih =>
      intro y ys hc
      rw [List.dropWhile_cons] at hc
      by_cases hp : p a = true
      · rw [if_pos hp] at hc
        exact ih hc
      · rw [if_neg hp] at hc
        injection hc with h1 h2
        rw [← h1]
        simpa using hp

/-- After dropping the leading run of a given value from a sorted null-free
list whose elements all dominate that value, every survivor is strictly
above it. -/
theorem sorted_dropWhile_lt (v : Nat → List Nat) (w : List Nat) (l : List Nat)
    (hNw : NFStr w) (hNF : ∀ z ∈ l, NFStr (v z))
    (hch : List.Chain' (fun p q => strcmp (v p) (v q) ≤ 0) l)
    (hle : ∀ z ∈ l, strcmp w (v z) ≤ 0) :
    ∀ z ∈ l.dropWhile (fun a => decide (v a = w)), strcmp w (v z) < 0 := by
  intro z hz
  have hsuf : l.dropWhile (fun a => decide (v a = w)) <:+ l :=
    List.dropWhile_suffix _
  cases hrest : l.dropWhile (fun a => decide (v a = w)) with
  | nil => rw [hrest] at hz; cases hz
  | cons yh ys =>
      have hpyh : decide (v yh = w) = false :=
        dropWhile_head_false (fun a => decide (v a = w)) l hrest
      have hvyh : v yh ≠ w := by simpa using hpyh
      have hyhmem : yh ∈ l := hsuf.sublist.subset (by rw [hrest]; simp)
      have hwlt : strcmp w (v yh) < 0 :=
        strcmp_lt_of_le_of_ne hNw (hNF yh hyhmem) (hle yh hyhmem)
          (fun hc => hvyh hc.symm)
      rw [hrest] at hz
      rcases List.mem_cons.1 hz with h1 | h1
      · rw [h1]; exact hwlt
      · have hzl : z ∈ l := hsuf.sublist.subset (by rw [hrest]; simp [h1])
        have hchrest : List.Chain' (fun p q => strcmp (v p) (v q) ≤ 0) (yh :: ys) := by
          have hs := hch.suffix hsuf
          rw [hrest] at hs
          exact hs
        have hyz : strcmp (v yh) (v z) ≤ 0 := by
          refine chain_head_le ?_ hchrest z h1
          intro u hu
          exact hNF u (hsuf.sublist.subset (by rw [hrest]; exact hu))
        exact strcmp_lt_le_trans hNw (hNF yh hyhmem) (hNF z hzl) hwlt hyz

/-- In a sorted null-free list whose first two values differ, the head value
is strictly below every later value. -/
theorem sorted_cons_lt (v : Nat → List Nat) {x y : Nat} {t : List Nat}
    (hNF : ∀ z ∈ x :: y :: t, NFStr (v z))
    (hch : List.Chain' (fun p q => strcmp (v p) (v q) ≤ 0) (x :: y :: t))
    (hxy : v x ≠ v y) :
    ∀ z ∈ y :: t, strcmp (v x) (v z) < 0 := by
  have hxylt : strcmp (v x) (v y) < 0 :=
    strcmp_lt_of_le_of_ne (hNF x (by simp)) (hNF y (by simp))
      (List.chain'_cons.mp hch).1 hxy
  intro z hz
  rcases List.mem_cons.1 hz with h1 | h1
  · rw [h1]; exact hxylt
  · have hyz : strcmp (v y) (v z) ≤ 0 := by
      refine chain_head_le ?_ hch.tail z h1
      intro u hu
      exact hNF u (List.mem_cons_of_mem x hu)
    exact strcmp_lt_le_trans (hNF x (by simp)) (hNF y (by simp))
      (hNF z (by simp [h1])) hxylt hyz

/-- With the duplicate flag raised, the loop of q_delete_dup deletes the
whole leading run of the head value and then restarts with the flag down. -/
theorem delDupA_true (v : Nat → List Nat) :
    ∀ (t : List Nat) (x : Nat), (∀ z ∈ x :: t, NFStr (v z)) →
      delDupA v (x :: t) true =
        delDupA v ((x :: t).dropWhile (fun a => decide (v a = v x))) false := by
  intro t
  induction t with
  | nil =>
      intro x _
      simp [delDupA_single, List.dropWhile]
  | cons y t ih =>
      intro x hNF
      rw [delDupA_cons2]
      rw [if_pos (by simp)]
      have hiff := strcmp_eq_zero_iff (hNF x (by simp)) (hNF y (by simp))
      by_cases hxy : v x = v y
      · have hm : decide (strcmp (v x) (v y) = 0) = true := by
          simp [hiff.mpr hxy]
        rw [hm]
        rw [ih y (fun z hz => hNF z (List.mem_cons_of_mem x hz))]
        have hdw : (x :: y :: t).dropWhile (fun a => decide (v a = v x)) =
            (y :: t).dropWhile (fun a => decide (v a = v x)) := by
          rw [List.dropWhile_cons]
          rw [if_pos (by simp)]
        rw [hdw, hxy]
      · have hm : decide (strcmp (v x) (v y) = 0) = false := by
          simp only [decide_eq_false_iff_not]
          intro hc
          exact hxy (hiff.mp hc)
        rw [hm]
        have hdw : (x :: y :: t).dropWhile (fun a => decide (v a = v x)) = y :: t := by
          rw [List.dropWhile_cons, if_pos (by simp), List.dropWhile_cons,
            if_neg (by simpa using fun hc => hxy hc.symm)]
        rw [hdw]

/-- On a sorted null-free traversal order, the delete_dup pass keeps exactly
the elements whose value occurs once, in their original relative order. -/
theorem delDupA_filter_aux (v : Nat → List Nat) :
    ∀ (n : Nat) (l : List Nat), l.length ≤ n → (∀ z ∈ l, NFStr (v z)) →
      List.Chain' (fun p q => strcmp (v p) (v q) ≤ 0) l →
      delDupA v l false = l.filter (keepP v l) := by
  intro n
  induction n with
  | zero =>
      intro l hl _ _
      have hnil : l = [] := List.length_eq_zero.mp (by omega)
      subst hnil
      rfl
  | succ n ih =>
      intro l hl hNF hch
      cases l with
      | nil => rfl
      | cons x t0 =>
      cases t0 with
      | nil => simp [delDupA_single, keepP, List.count_cons]
      | cons y t =>
          have hNx : NFStr (v x) := hNF x (by simp)
          have hNy : NFStr (v y) := hNF y (by simp)
          have hNFt : ∀ z ∈ y :: t, NFStr (v z) :=
            fun z hz => hNF z (List.mem_cons_of_mem x hz)
          have hiff := strcmp_eq_zero_iff hNx hNy
          have hlen : (y :: t).length ≤ n := by
            simp at hl ⊢
            omega
          by_cases hxy : v x = v y
          · have hm : decide (strcmp (v x) (v y) = 0) = true := by
              simp [hiff.mpr hxy]
            have hle : ∀ z ∈ y :: t, strcmp (v y) (v z) ≤ 0 := by
              intro z hz
              rcases List.mem_cons.1 hz with h1 | h1
              · rw [h1, strcmp_refl]
              · exact chain_head_le hNFt hch.tail z h1
            have hlt := sorted_dropWhile_lt v (v y) (y :: t) hNy hNFt hch.tail hle
            have hsplit : (y :: t).takeWhile (fun a => decide (v a = v y)) ++
                (y :: t).dropWhile (fun a => decide (v a = v y)) = y :: t :=
              List.takeWhile_append_dropWhile _ _
            have hsuf : (y :: t).dropWhile (fun a => decide (v a = v y)) <:+ y :: t :=
              List.dropWhile_suffix _
            have hrunval : ∀ a ∈ (y :: t).takeWhile (fun a => decide (v a = v y)),
                v a = v y := fun a ha => of_decide_eq_true
                  (@List.mem_takeWhile_imp Nat (fun b => decide (v b = v y)) (y :: t) a ha)
            have hNFrest : ∀ z ∈ (y :: t).dropWhile (fun a => decide (v a = v y)),
                NFStr (v z) := fun z hz => hNFt z (hsuf.sublist.subset hz)
            have hchrest := hch.tail.suffix hsuf
            have hlenrest : ((y :: t).dropWhile (fun a => decide (v a = v y))).length ≤ n :=
              le_trans hsuf.sublist.length_le hlen
            have hih := ih _ hlenrest hNFrest hchrest
            have hb2 : (v y == v x) = true := by
              rw [hxy]
              exact beq_self_eq_true _
            have hcnt2 : 2 ≤ List.count (v x) ((x :: y :: t).map v) := by
              simp only [List.map_cons, List.count_cons, hb2, beq_self_eq_true]
              simp
            have hkx : keepP v (x :: y :: t) x = false := by
              simp only [keepP, decide_eq_false_iff_not]
              omega
            have hkrun : ∀ a ∈ (y :: t).takeWhile (fun a => decide (v a = v y)),
                keepP v (x :: y :: t) a = false := by
              intro a ha
              have hva : v a = v x := by rw [hrunval a ha, ← hxy]
              simp only [keepP, decide_eq_false_iff_not, hva]
              omega
            have hfil : List.filter (keepP v (x :: y :: t)) (x :: y :: t) =
                List.filter (keepP v ((y :: t).dropWhile (fun a => decide (v a = v y))))
                  ((y :: t).dropWhile (fun a => decide (v a = v y))) := by
              rw [List.filter_cons, hkx, if_neg (by simp)]
              have h1 : List.filter (keepP v (x :: y :: t))
                  ((y :: t).takeWhile (fun a => decide (v a = v y))) = [] :=
                List.filter_eq_nil_iff.mpr (fun a ha => by rw [hkrun a ha]; simp)
              have h2 : List.filter (keepP v (x :: y :: t)) (y :: t) =
                  List.filter (keepP v (x :: y :: t))
                    ((y :: t).takeWhile (fun a => decide (v a = v y))) ++
                  List.filter (keepP v (x :: y :: t))
                    ((y :: t).dropWhile (fun a => decide (v a = v y))) := by
                rw [← List.filter_append, hsplit]
              rw [h2, h1, List.nil_append]
              refine List.filter_congr ?_
              intro z hz
              have hzy : v y ≠ v z := strcmp_ne_of_lt (hlt z hz)
              have hzx : (v x == v z) = false := by
                rw [hxy]
                simpa using hzy
              have hcrun : List.count (v z)
                  (((y :: t).takeWhile (fun a => decide (v a = v y))).map v) = 0 := by
                rw [List.count_eq_zero]
                intro hc
                obtain ⟨a, ha, hva⟩ := List.mem_map.1 hc
                exact hzy (by rw [← hva, hrunval a ha])
              have hmapsplit : (y :: t).map v =
                  ((y :: t).takeWhile (fun a => decide (v a = v y))).map v ++
                  ((y :: t).dropWhile (fun a => decide (v a = v y))).map v := by
                rw [← List.map_append, hsplit]
              have hcc : List.count (v z) ((x :: y :: t).map v) =
                  List.count (v z)
                    (((y :: t).dropWhile (fun a => decide (v a = v y))).map v) := by
                rw [List.map_cons, List.count_cons, hzx, hmapsplit,
                  List.count_append, hcrun]
                simp
              simp only [keepP, hcc]
            rw [delDupA_cons2]
            simp only [hm, Bool.true_or]
            rw [if_pos trivial]
            rw [delDupA_true v t y hNFt, hih, hfil]
          · have hm : decide (strcmp (v x) (v y) = 0) = false := by
              simp only [decide_eq_false_iff_not]
              intro hc
              exact hxy (hiff.mp hc)
            have hlt := sorted_cons_lt v hNF hch hxy
            have hih := ih _ hlen hNFt hch.tail
            have hcx0 : List.count (v x) ((y :: t).map v) = 0 := by
              rw [List.count_eq_zero]
              intro hc
              obtain ⟨a, ha, hva⟩ := List.mem_map.1 hc
              exact strcmp_ne_of_lt (hlt a ha) hva.symm
            have hkx : keepP v (x :: y :: t) x = true := by
              simp only [keepP]
              rw [List.map_cons, List.count_cons, hcx0]
              simp
            have hfil : List.filter (keepP v (x :: y :: t)) (y :: t) =
                List.filter (keepP v (y :: t)) (y :: t) := by
              refine List.filter_congr ?_
              intro z hz
              have hzx : (v x == v z) = false := by
                simpa using strcmp_ne_of_lt (hlt z hz)
              have hcc : List.count (v z) ((x :: y :: t).map v) =
                  List.count (v z) ((y :: t).map v) := by
                rw [List.map_cons, List.count_cons, hzx]
                simp
              simp only [keepP, hcc]
            rw [delDupA_cons2]
            simp only [hm, Bool.false_or]
            rw [if_neg (by simp)]
            rw [List.filter_cons, hkx, if_pos rfl, hfil, hih]

/-- The delete_dup pass on a sorted null-free order is the filter keeping
the elements whose value occurs exactly once. -/
theorem delDupA_filter (v : Nat → List Nat) (l : List Nat)
    (hNF : ∀ z ∈ l, NFStr (v z))
    (hch : List.Chain' (fun p q => strcmp (v p) (v q) ≤ 0) l) :
    delDupA v l false = l.filter (keepP v l) :=
  delDupA_filter_aux v l.length l le_rfl hNF hch

theorem swapA_length_aux : ∀ (n : Nat) (l : List Nat), l.length ≤ n →
    (swapA l).length = l.length := by
  intro n
  induction n with
  | zero =>
      intro l hl
      have hnil : l = [] := List.length_eq_zero.mp (by omega)
      subst hnil
      rfl
  | succ n ih =>
      intro l hl
      match l with
      | [] => rfl
      | [x] => rfl
      | x :: y :: t =>
          rw [swapA_cons2]
          simp only [List.length_cons]
          rw [ih t (by simp at hl; omega)]

theorem swapA_length (l : List Nat) : (swapA l).length = l.length :=
  swapA_length_aux l.length l le_rfl

theorem swapA_perm_aux : ∀ (n : Nat) (l : List Nat), l.length ≤ n →
    List.Perm (swapA l) l := by
  intro n
  induction n with
  | zero =>
      intro l hl
      have hnil : l = [] := List.length_eq_zero.mp (by omega)
      subst hnil
      exact List.Perm.refl []
  | succ n ih =>
      intro l hl
      match l with
      | [] => exact List.Perm.refl []
      | [x] => exact List.Perm.refl [x]
      | x :: y :: t =>
          rw [swapA_cons2]
          have hperm := ih t (by simp at hl; omega)
          exact List.Perm.trans
            (List.Perm.cons y (List.Perm.cons x hperm)) (List.Perm.swap x y t)

/-- Pairwise swap permutes the traversal order. -/
theorem swapA_perm (l : List Nat) : List.Perm (swapA l) l :=
  swapA_perm_aux l.length l le_rfl

theorem swapA_swapA_even_aux : ∀ (n : Nat) (l : List Nat), l.length ≤ n →
    l.length % 2 = 0 → swapA (swapA l) = l := by
  intro n
  induction n with
  | zero =>
      intro l hl _
      have hnil : l = [] := List.length_eq_zero.mp (by omega)
      subst hnil
      rfl
  | succ n ih =>
      intro l hl hpar
      match l with
      | [] => rfl
      | [x] => simp at hpar
      | x :: y :: t =>
          rw [swapA_cons2, swapA_cons2]
          rw [ih t (by simp at hl; omega) (by simp at hpar ⊢; omega)]

/-- Pairwise swap is an involution on even-length orders. -/
theorem swapA_swapA_even (l : List Nat) (hpar : l.length % 2 = 0) :
    swapA (swapA l) = l :=
  swapA_swapA_even_aux l.length l le_rfl hpar

theorem swapA_getLast_odd_aux : ∀ (n : Nat) (l : List Nat), l.length ≤ n →
    l.length % 2 = 1 → (swapA l).getLast? = l.getLast? := by
  intro n
  induction n with
  | zero =>
      intro l hl hpar
      have hnil : l = [] := List.length_eq_zero.mp (by omega)
      subst hnil
      simp at hpar
  | succ n ih =>
      intro l hl hpar
      match l with
      | [] => simp at hpar
      | [x] => rfl
      | x :: y :: t =>
          have htne : t ≠ [] := by
            intro hc
            subst hc
            simp at hpar
          have hsne : swapA t ≠ [] := by
            intro hc
            have := swapA_length t
            rw [hc] at this
            exact htne (List.length_eq_zero.mp this.symm)
          obtain ⟨c, r, hcr⟩ := List.exists_cons_of_ne_nil hsne
          obtain ⟨d, r2, hdr⟩ := List.exists_cons_of_ne_nil htne
          rw [swapA_cons2, hcr, hdr]
          show (c :: r).getLast? = (d :: r2).getLast?
          rw [← hcr, ← hdr]
          exact ih t (by simp at hl; omega) (by simp at hpar ⊢; omega)

/-- Pairwise swap keeps the last element of an odd-length order in place. -/
theorem swapA_getLast_odd (l : List Nat) (hpar : l.length % 2 = 1) :
    (swapA l).getLast? = l.getLast? :=
  swapA_getLast_odd_aux l.length l le_rfl hpar

/-- The removal output buffer is filled to exactly the buffer capacity. -/
theorem spCopy_length (v : List Nat) (b : Nat) (hb : 1 ≤ b) :
    (spCopy v b).length = b := by
  simp only [spCopy, strncpyBytes, List.length_append, List.length_take,
    List.length_replicate, List.length_cons, List.length_nil]
  omega

theorem takeWhile_all_append (p : Nat → Bool) :
    ∀ (l1 l2 : List Nat), (∀ x ∈ l1, p x = true) →
      (l1 ++ l2).takeWhile p = l1 ++ l2.takeWhile p := by
  intro l1
  induction l1 with
  | nil => intro l2 _; simp
  | cons a t ih =>
      intro l2 hall
      rw [List.cons_append, List.takeWhile_cons, if_pos (hall a (by simp)),
        List.cons_append, ih l2 (fun x hx => hall x (by simp [hx]))]

theorem takeWhile_zero_block (m : Nat) :
    (List.replicate m 0 ++ [0]).takeWhile (fun b => decide (b ≠ 0)) = [] := by
  cases m with
  | zero => simp [List.takeWhile_cons]
  | succ m => simp [List.replicate_succ, List.takeWhile_cons]

/-- Read back as a C string, the removal output buffer holds exactly the
first bufsize - 1 bytes of the stored value. -/
theorem spCopy_cstr (v : List Nat) (b : Nat) (hNF : NFStr v) :
    cstrOf (spCopy v b) = v.take (b - 1) := by
  unfold cstrOf spCopy strncpyBytes
  rw [List.append_assoc]
  rw [takeWhile_all_append _ _ _ (fun x hx => by
    have hx0 : 0 < x := hNF x (List.mem_of_mem_take hx)
    simp
    omega)]
  rw [takeWhile_zero_block, List.append_nil]

/-- With a one-byte buffer, only the terminator is written. -/
theorem spCopy_one (v : List Nat) : spCopy v 1 = [0] := by
  simp [spCopy, strncpyBytes]

/-- Executable sortedness of a traversal order under the string comparator. -/
def sortedB (v : Nat → List Nat) : List Nat → Bool
  | [] => true
  | [_] => true
  | x :: y :: t => decide (strcmp (v x) (v y) ≤ 0) && sortedB v (y :: t)

theorem sortedB_iff_chain (v : Nat → List Nat) :
    ∀ (l : List Nat), sortedB v l = true ↔
      List.Chain' (fun p q => strcmp (v p) (v q) ≤ 0) l := by
  intro l
  induction l with
  | nil => simp [sortedB]
  | cons x t ih =>
      cases t with
      | nil => simp [sortedB]
      | cons y t2 =>
          rw [List.chain'_cons, ← ih]
          simp [sortedB]

/-- Concrete one-element ring: sentinel 1, element 2 holding the byte
string "x". -/
def heapA : Heap :=
  { next := fun a => if a = 1 then 2 else if a = 2 then 1 else 0,
    prev := fun a => if a = 1 then 2 else if a = 2 then 1 else 0,
    val := fun a => if a = 2 then [120] else [] }

/-- Concrete two-element ring: sentinel 1, elements 2 and 3 holding the byte
strings "b" and "a". -/
def heapB : Heap :=
  { next := fun a => if a = 1 then 2 else if a = 2 then 3 else if a = 3 then 1 else 0,
    prev := fun a => if a = 1 then 3 else if a = 3 then 2 else if a = 2 then 1 else 0,
    val := fun a => if a = 2 then [98] else if a = 3 then [97] else [] }

/-- Concrete three-element ring with sorted values "a", "a", "b": sentinel 1,
elements 2, 3, 4. -/
def heapC : Heap :=
  { next := fun a => if a = 1 then 2 else if a = 2 then 3 else if a = 3 then 4 else
      if a = 4 then 1 else 0,
    prev := fun a => if a = 1 then 4 else if a = 4 then 3 else if a = 3 then 2 else
      if a = 2 then 1 else 0,
    val := fun a => if a = 2 then [97] else if a = 3 then [97] else
      if a = 4 then [98] else [] }

/-- Concrete six-element ring: sentinel 1, elements 2 through 7. -/
def heapF : Heap :=
  { next := fun a => if 1 ≤ a ∧ a ≤ 6 then a + 1 else if a = 7 then 1 else 0,
    prev := fun a => if 2 ≤ a ∧ a ≤ 7 then a - 1 else if a = 1 then 7 else 0,
    val := fun _ => [] }

/-- Concrete allocation state wrapping the two-element ring. -/
def stB : MState := { heap := heapB, blocks := [] }

/-- C1: the insertion paths of queue.c allocate the string buffer with
malloc(sizeof(length)), a constant sizeof(size_t) = 8 bytes on the LP64
target, while the specification mandates length(value) + 1 bytes; the copy
then writes length(value) + 1 bytes, so an 8-byte string already overflows
the allocation.  This refutes the claim that the code allocates exactly
length(value) + 1 bytes. -/
theorem C1_insert_alloc_divergence :
    (∀ s : List Nat, insertAllocBytes s = sizeof_size_t) ∧
    insertAllocBytes (List.replicate 8 97) = 8 ∧
    specAllocBytes (List.replicate 8 97) = 9 ∧
    insertCopyBytes (List.replicate 8 97) = 9 ∧
    insertAllocBytes (List.replicate 8 97) < insertCopyBytes (List.replicate 8 97) :=
  ⟨fun _ => rfl, by decide, by decide, by decide, by decide⟩

/-- C2: every public operation preserves the ring invariant — each operation
carried out on a well-formed ring yields a well-formed ring over the
appropriate traversal order — and on every well-formed ring each node
satisfies next->prev = node and prev->next = node, with emptiness exactly
the self-loop of the sentinel. -/
theorem C2_ring_invariant (st : MState) (s : Nat) (l : List Nat)
    (hr : isRing st.heap s l) (n : Nat) (hn : n ∉ s :: l) (h0 : n ≠ 0)
    (v : List Nat) (sb : Nat) (useSp : Bool) (bs : Nat)
    (fuel : Nat) (hf : 2 * l.length ≤ fuel) :
    isRing (q_insert_head st (some s) v (some n) (some sb)).1.heap s (n :: l) ∧
    isRing (q_insert_tail st (some s) v (some n) (some sb)).1.heap s (l ++ [n]) ∧
    (∀ x t, l = x :: t → isRing (q_remove_head st.heap (some s) useSp bs).1 s t) ∧
    (∀ ini x, l = ini ++ [x] → isRing (q_remove_tail st.heap (some s) useSp bs).1 s ini) ∧
    (l ≠ [] → isRing (q_delete_mid st.heap (some s) fuel).1 s
      (l.eraseIdx ((l.length - 1) / 2))) ∧
    isRing (q_delete_dup st.heap (some s) fuel).1 s (delDupA st.heap.val l false) ∧
    isRing (q_swap st.heap (some s) fuel) s (swapA l) ∧
    isRing (q_reverse st.heap (some s) fuel) s l.reverse ∧
    isRing (q_sort st.heap (some s) fuel) s (msortA st.heap.val l) ∧
    (∀ (h2 : Heap) (s2 : Nat) (l2 : List Nat), isRing h2 s2 l2 →
      (∀ a ∈ s2 :: l2, h2.prev (h2.next a) = a ∧ h2.next (h2.prev a) = a) ∧
      (l2 = [] ↔ h2.next s2 = s2)) := by
  have hf1 : l.length ≤ fuel := by omega
  have hih := q_insert_head_success hr hn h0 v sb
  have hit := q_insert_tail_success hr hn h0 v sb
  have hrh := q_remove_head_spec hr useSp bs
  have hrt := q_remove_tail_spec hr useSp bs
  have hdm := q_delete_mid_spec hr hf1
  have hdd := q_delete_dup_spec hr hf1
  have hsw := q_swap_spec hr hf1
  have hrv := q_reverse_spec hr hf1
  have hst := q_sort_spec hr hf
  refine ⟨hih.2.1, hit.2.1, ?_, ?_, fun hne => (hdm.1 hne).2.1, hdd.2.1, hsw.1,
    hrv.1, hst.1, ?_⟩
  · intro x t hl
    rw [(hrh.2 x t hl).1]
    exact (hrh.2 x t hl).2.1
  · intro ini x hl
    rw [(hrt.2 ini x hl).1]
    exact (hrt.2 ini x hl).2.1
  · intro h2 s2 l2 hr2
    constructor
    · intro a ha
      refine ⟨seg_next_prev hr2.2.2 a ha, seg_prev_next hr2.2.2 a ?_⟩
      rcases List.mem_cons.1 ha with h1 | h1
      · rw [h1]; simp
      · exact List.mem_append_left _ h1
    · exact (ring_empty_iff hr2).symm

/-- C2 witness: the invariant theorem applied to a concrete two-element
ring; recorded here through its insert_head consequence. -/
theorem C2_ring_invariant_witness :
    isRing stB.heap 1 [2, 3] ∧ (5 : Nat) ∉ (1 : Nat) :: [2, 3] ∧ (5 : Nat) ≠ 0 ∧
    2 * ([2, 3] : List Nat).length ≤ 10 ∧
    isRing (q_insert_head stB (some 1) [99] (some 5) (some 9)).1.heap 1 [5, 2, 3] :=
  ⟨by decide, by decide, by decide, by decide,
    (C2_ring_invariant stB 1 [2, 3] (by decide) 5 (by decide) (by decide)
      [99] 9 true 3 10 (by decide)).1⟩

/-- C3: on any ring of null-free strings, q_sort produces the merge sort of
the traversal order, which is non-decreasing under the byte-wise string
comparison (ties included); sorting a second time reproduces exactly the
same traversal order (idempotence); and q_sort is a no-op on a null, empty
or one-element ring. -/
theorem C3_sort_sorted_idempotent (h : Heap) (s : Nat) (l : List Nat)
    (hr : isRing h s l) (hNF : ∀ z ∈ l, NFStr (h.val z))
    (fuel : Nat) (hf : 2 * l.length ≤ fuel) :
    isRing (q_sort h (some s) fuel) s (msortA h.val l) ∧
    List.Chain' (fun p q => strcmp (h.val p) (h.val q) ≤ 0) (msortA h.val l) ∧
    (q_sort h (some s) fuel).val = h.val ∧
    isRing (q_sort (q_sort h (some s) fuel) (some s) fuel) s (msortA h.val l) ∧
    (l = [] → q_sort h (some s) fuel = h) ∧
    (∀ x, l = [x] → q_sort h (some s) fuel = h) ∧
    q_sort h none fuel = h := by
  have hs1 := q_sort_spec hr hf
  have hval : (q_sort h (some s) fuel).val = h.val := hs1.2.1
  have hlen1 : (msortA h.val l).length = l.length := (msortA_perm h.val l).length_eq
  have hf1 : 2 * (msortA h.val l).length ≤ fuel := by rw [hlen1]; exact hf
  have hs2 := q_sort_spec hs1.1 hf1
  refine ⟨hs1.1, msortA_sorted h.val l, hval, ?_, hs1.2.2.1, hs1.2.2.2.1, hs1.2.2.2.2⟩
  have h2 := hs2.1
  rw [hval, msortA_idem h.val l hNF] at h2
  exact h2

/-- C3 witness: the sort theorem applied to a concrete two-element ring
holding the unsorted values "b", "a"; recorded through its first-sort
consequence. -/
theorem C3_sort_sorted_idempotent_witness :
    isRing heapB 1 [2, 3] ∧ (∀ z ∈ [2, 3], NFStr (heapB.val z)) ∧
    2 * ([2, 3] : List Nat).length ≤ 10 ∧
    isRing (q_sort heapB (some 1) 10) 1 (msortA heapB.val [2, 3]) :=
  ⟨by decide, by decide, by decide,
    (C3_sort_sorted_idempotent heapB 1 [2, 3] (by decide) (by decide) 10 (by decide)).1⟩

/-- C4: on a non-empty ring of n elements, q_delete_mid removes the element
at zero-based index (n - 1) / 2 of the traversal order — the code walks
front from the first element and back from the last and deletes where they
meet — and returns true.  The claimed index n / 2 is refuted by the
counterexample below; this theorem states the corrected index. -/
theorem C4_delete_mid_index (h : Heap) (s : Nat) (l : List Nat)
    (hr : isRing h s l) (fuel : Nat) (hf : l.length ≤ fuel) (hne : l ≠ []) :
    (q_delete_mid h (some s) fuel).2 = true ∧
    isRing (q_delete_mid h (some s) fuel).1 s (l.eraseIdx ((l.length - 1) / 2)) ∧
    (q_delete_mid h (some s) fuel).1.val = h.val := by
  have hdm := q_delete_mid_spec hr hf
  exact ⟨(hdm.1 hne).1, (hdm.1 hne).2.1, (hdm.1 hne).2.2⟩

/-- C4 witness: the corrected index theorem applied to a concrete
three-element ring, which loses its second element (index 1 = (3-1)/2). -/
theorem C4_delete_mid_index_witness :
    isRing heapC 1 [2, 3, 4] ∧ ([2, 3, 4] : List Nat).length ≤ 10 ∧
    ([2, 3, 4] : List Nat) ≠ [] ∧
    ((q_delete_mid heapC (some 1) 10).2 = true ∧
      isRing (q_delete_mid heapC (some 1) 10).1 1
        ([2, 3, 4].eraseIdx ((([2, 3, 4] : List Nat).length - 1) / 2)) ∧
      (q_delete_mid heapC (some 1) 10).1.val = heapC.val) :=
  ⟨by decide, by decide, by decide,
    C4_delete_mid_index heapC 1 [2, 3, 4] (by decide) 10 (by decide) (by decide)⟩

/-- C4 counterexample: on the concrete two-element ring the code deletes the
first element (index 0), leaving the second; the claim's index
⌊n / 2⌋ = 1 would leave the first element instead, and the resulting heap
does not carry that ring. -/
theorem C4_delete_mid_index_counterexample :
    (q_delete_mid heapB (some 1) 10).2 = true ∧
    isRing (q_delete_mid heapB (some 1) 10).1 1 [3] ∧
    ¬ isRing (q_delete_mid heapB (some 1) 10).1 1
        (List.eraseIdx [2, 3] (List.length [2, 3] / 2)) := by decide

/-- C5: on a ring holding exactly six elements a, b, c, d, e, f in traversal
order, q_delete_mid removes the third element c (zero-based index 2),
leaving a, b, d, e, f, and returns true. -/
theorem C5_delete_mid_six (h : Heap) (s a b c d e f : Nat)
    (hr : isRing h s [a, b, c, d, e, f]) (fuel : Nat) (hf : 6 ≤ fuel) :
    (q_delete_mid h (some s) fuel).2 = true ∧
    isRing (q_delete_mid h (some s) fuel).1 s [a, b, d, e, f] := by
  have hdm := q_delete_mid_spec hr (by simpa using hf)
  have hne : ([a, b, c, d, e, f] : List Nat) ≠ [] := by simp
  refine ⟨(hdm.1 hne).1, ?_⟩
  have h2 := (hdm.1 hne).2.1
  have hidx : (([a, b, c, d, e, f] : List Nat).length - 1) / 2 = 2 := by simp
  rw [hidx] at h2
  exact h2

/-- C5 witness: the six-element theorem applied to a concrete ring with
elements 2 through 7, which loses element 4. -/
theorem C5_delete_mid_six_witness :
    isRing heapF 1 [2, 3, 4, 5, 6, 7] ∧ (6 : Nat) ≤ 10 ∧
    ((q_delete_mid heapF (some 1) 10).2 = true ∧
      isRing (q_delete_mid heapF (some 1) 10).1 1 [2, 3, 5, 6, 7]) :=
  ⟨by decide, by decide,
    C5_delete_mid_six heapF 1 2 3 4 5 6 7 (by decide) 10 (by decide)⟩

/-- C6: on a ring whose null-free values are sorted ascending, q_delete_dup
returns true, keeps exactly the elements whose value occurs once — in their
original relative order, as a filter of the traversal order — changes no
stored value, leaves a duplicate-free ring with its traversal order intact,
leaves an empty ring unchanged, and returns false exactly on a null ring. -/
theorem C6_delete_dup_unique (h : Heap) (s : Nat) (l : List Nat)
    (hr : isRing h s l) (hNF : ∀ z ∈ l, NFStr (h.val z))
    (hsorted : List.Chain' (fun p q => strcmp (h.val p) (h.val q) ≤ 0) l)
    (fuel : Nat) (hf : l.length ≤ fuel) :
    (q_delete_dup h (some s) fuel).2 = true ∧
    isRing (q_delete_dup h (some s) fuel).1 s (l.filter (keepP h.val l)) ∧
    (q_delete_dup h (some s) fuel).1.val = h.val ∧
    ((∀ a ∈ l, keepP h.val l a = true) →
      isRing (q_delete_dup h (some s) fuel).1 s l) ∧
    (l = [] → (q_delete_dup h (some s) fuel).1 = h) ∧
    q_delete_dup h none fuel = (h, false) := by
  have hdd := q_delete_dup_spec hr hf
  have hfil := delDupA_filter h.val l hNF hsorted
  have hring : isRing (q_delete_dup h (some s) fuel).1 s (l.filter (keepP h.val l)) := by
    rw [← hfil]
    exact hdd.2.1
  refine ⟨hdd.1, hring, hdd.2.2.1, ?_, hdd.2.2.2.1, hdd.2.2.2.2⟩
  intro hall
  rw [← List.filter_eq_self.mpr hall]
  exact hring

/-- C6 witness: the theorem applied to a concrete sorted three-element ring
with values "a", "a", "b"; only the element holding "b" survives. -/
theorem C6_delete_dup_unique_witness :
    isRing heapC 1 [2, 3, 4] ∧ (∀ z ∈ [2, 3, 4], NFStr (heapC.val z)) ∧
    List.Chain' (fun p q => strcmp (heapC.val p) (heapC.val q) ≤ 0) [2, 3, 4] ∧
    ([2, 3, 4] : List Nat).length ≤ 10 ∧
    ((q_delete_dup heapC (some 1) 10).2 = true ∧
      isRing (q_delete_dup heapC (some 1) 10).1 1
        ([2, 3, 4].filter (keepP heapC.val [2, 3, 4]))) :=
  ⟨by decide, by decide, (sortedB_iff_chain heapC.val [2, 3, 4]).mp (by decide),
    by decide,
    ⟨(C6_delete_dup_unique heapC 1 [2, 3, 4] (by decide) (by decide)
        ((sortedB_iff_chain heapC.val [2, 3, 4]).mp (by decide)) 10 (by decide)).1,
      (C6_delete_dup_unique heapC 1 [2, 3, 4] (by decide) (by decide)
        ((sortedB_iff_chain heapC.val [2, 3, 4]).mp (by decide)) 10 (by decide)).2.1⟩⟩

/-- C7: each insertion path returns false and leaves the allocation state —
heap and live blocks — completely unchanged when the ring is null, when the
element allocation fails, or when the string-buffer allocation fails; in the
last case the partially allocated element has been released again, which is
exactly why the block list is restored. -/
theorem C7_insert_failure_rollback (st : MState) (hd : Nat) (v : List Nat)
    (ea sa : Option Nat) :
    q_insert_head st none v ea sa = (st, false) ∧
    q_insert_tail st none v ea sa = (st, false) ∧
    q_insert_head st (some hd) v none sa = (st, false) ∧
    q_insert_tail st (some hd) v none sa = (st, false) ∧
    (∀ n, q_insert_head st (some hd) v (some n) none = (st, false)) ∧
    (∀ n, q_insert_tail st (some hd) v (some n) none = (st, false)) := by
  have hh := q_insert_head_fail st hd v ea sa
  have ht := q_insert_tail_fail st hd v ea sa
  exact ⟨hh.1, ht.1, hh.2.1, ht.2.1, hh.2.2, ht.2.2⟩

/-- C8: removal from the head or tail yields no element exactly on a null or
empty ring; otherwise it unlinks the first (resp. last) element of the
traversal order and hands it back, and with an output buffer of capacity
bufsize ≥ 1 it writes exactly bufsize bytes — the first bufsize - 1 bytes of
the stored string, zero padded, and a forced terminator — so the C-string
readback is the string truncated to bufsize - 1 bytes and a one-byte buffer
receives only the terminator. -/
theorem C8_remove_boundary_buffer (h : Heap) (s : Nat) (l : List Nat)
    (hr : isRing h s l) (bs : Nat) (hbs : 1 ≤ bs) :
    q_remove_head h none true bs = (h, none, none) ∧
    q_remove_tail h none true bs = (h, none, none) ∧
    (l = [] → q_remove_head h (some s) true bs = (h, none, none) ∧
      q_remove_tail h (some s) true bs = (h, none, none)) ∧
    (∀ x t, l = x :: t →
      (q_remove_head h (some s) true bs).2.1 = some x ∧
      isRing (q_remove_head h (some s) true bs).1 s t ∧
      (q_remove_head h (some s) true bs).2.2 = some (spCopy (h.val x) bs) ∧
      (spCopy (h.val x) bs).length = bs ∧
      (NFStr (h.val x) → cstrOf (spCopy (h.val x) bs) = (h.val x).take (bs - 1)) ∧
      (bs = 1 → spCopy (h.val x) bs = [0])) ∧
    (∀ ini x, l = ini ++ [x] →
      (q_remove_tail h (some s) true bs).2.1 = some x ∧
      isRing (q_remove_tail h (some s) true bs).1 s ini ∧
      (q_remove_tail h (some s) true bs).2.2 = some (spCopy (h.val x) bs) ∧
      (spCopy (h.val x) bs).length = bs) := by
  have hrh := q_remove_head_spec hr true bs
  have hrt := q_remove_tail_spec hr true bs
  refine ⟨rfl, rfl, fun hl => ⟨hrh.1 hl, hrt.1 hl⟩, ?_, ?_⟩
  · intro x t hl
    have hspec := hrh.2 x t hl
    rw [hspec.1]
    exact ⟨rfl, hspec.2.1, rfl, spCopy_length _ _ hbs,
      fun hN => spCopy_cstr _ _ hN, fun h1 => by rw [h1]; exact spCopy_one _⟩
  · intro ini x hl
    have hspec := hrt.2 ini x hl
    rw [hspec.1]
    exact ⟨rfl, hspec.2.1, rfl, spCopy_length _ _ hbs⟩

/-- C8 witness: the removal theorem applied to a concrete one-element ring
with a one-byte buffer — only the terminator is written. -/
theorem C8_remove_boundary_buffer_witness :
    isRing heapA 1 [2] ∧ (1 : Nat) ≤ 1 ∧
    ((q_remove_head heapA (some 1) true 1).2.1 = some 2 ∧
      isRing (q_remove_head heapA (some 1) true 1).1 1 [] ∧
      (q_remove_head heapA (some 1) true 1).2.2 = some (spCopy (heapA.val 2) 1) ∧
      (spCopy (heapA.val 2) 1).length = 1 ∧
      (NFStr (heapA.val 2) →
        cstrOf (spCopy (heapA.val 2) 1) = (heapA.val 2).take (1 - 1)) ∧
      (1 = 1 → spCopy (heapA.val 2) 1 = [0])) :=
  ⟨by decide, by decide,
    (C8_remove_boundary_buffer heapA 1 [2] (by decide) 1 (by decide)).2.2.2.1 2 [] rfl⟩

/-- C9: q_swap exchanges each consecutive adjacent pair of the traversal
order (1,2,3,4 becomes 2,1,4,3 by construction of swapA), touches no stored
value, rearranges a permutation of the same elements (allocating and freeing
nothing), is a no-op on a null or empty ring; applying it twice to an
even-length ring restores the original order, and on an odd-length ring the
unpaired last element is unmoved both times. -/
theorem C9_swap_pairs (h : Heap) (s : Nat) (l : List Nat)
    (hr : isRing h s l) (fuel : Nat) (hf : l.length ≤ fuel) :
    isRing (q_swap h (some s) fuel) s (swapA l) ∧
    (q_swap h (some s) fuel).val = h.val ∧
    List.Perm (swapA l) l ∧
    (∀ a b c d : Nat, swapA [a, b, c, d] = [b, a, d, c]) ∧
    (l = [] → q_swap h (some s) fuel = h) ∧
    q_swap h none fuel = h ∧
    isRing (q_swap (q_swap h (some s) fuel) (some s) fuel) s (swapA (swapA l)) ∧
    (l.length % 2 = 0 → swapA (swapA l) = l) ∧
    (l.length % 2 = 1 → (swapA l).getLast? = l.getLast? ∧
      (swapA (swapA l)).getLast? = l.getLast?) := by
  have hsw := q_swap_spec hr hf
  have hf1 : (swapA l).length ≤ fuel := by rw [swapA_length]; exact hf
  have hsw2 := q_swap_spec hsw.1 hf1
  refine ⟨hsw.1, hsw.2.1, swapA_perm l, fun a b c d => rfl, hsw.2.2.1, hsw.2.2.2,
    hsw2.1, fun hpar => swapA_swapA_even l hpar, fun hpar => ?_⟩
  have hlen : (swapA l).length % 2 = 1 := by rw [swapA_length]; exact hpar
  exact ⟨swapA_getLast_odd l hpar,
    by rw [swapA_getLast_odd (swapA l) hlen, swapA_getLast_odd l hpar]⟩

/-- C9 witness: the swap theorem applied to a concrete two-element ring;
recorded through its traversal-order consequence. -/
theorem C9_swap_pairs_witness :
    isRing heapB 1 [2, 3] ∧ ([2, 3] : List Nat).length ≤ 10 ∧
    isRing (q_swap heapB (some 1) 10) 1 (swapA [2, 3]) :=
  ⟨by decide, by decide,
    (C9_swap_pairs heapB 1 [2, 3] (by decide) 10 (by decide)).1⟩

/-- C10: the element removed by q_remove_head or q_remove_tail has its link
node reset to a self-loop — in the returned heap both its next and prev
point at itself — and it is not among the elements remaining in the ring. -/
theorem C10_removed_self_loop (h : Heap) (s : Nat) (l : List Nat)
    (hr : isRing h s l) (useSp : Bool) (bs : Nat) :
    (∀ x t, l = x :: t →
      (q_remove_head h (some s) useSp bs).2.1 = some x ∧
      (q_remove_head h (some s) useSp bs).1.next x = x ∧
      (q_remove_head h (some s) useSp bs).1.prev x = x ∧
      x ∉ t ∧ isRing (q_remove_head h (some s) useSp bs).1 s t) ∧
    (∀ ini x, l = ini ++ [x] →
      (q_remove_tail h (some s) useSp bs).2.1 = some x ∧
      (q_remove_tail h (some s) useSp bs).1.next x = x ∧
      (q_remove_tail h (some s) useSp bs).1.prev x = x ∧
      x ∉ ini ∧ isRing (q_remove_tail h (some s) useSp bs).1 s ini) := by
  have hrh := q_remove_head_spec hr useSp bs
  have hrt := q_remove_tail_spec hr useSp bs
  constructor
  · intro x t hl
    have hspec := hrh.2 x t hl
    rw [hspec.1]
    exact ⟨rfl, hspec.2.2.1, hspec.2.2.2.1, hspec.2.2.2.2.1, hspec.2.1⟩
  · intro ini x hl
    have hspec := hrt.2 ini x hl
    rw [hspec.1]
    exact ⟨rfl, hspec.2.2.1, hspec.2.2.2.1, hspec.2.2.2.2.1, hspec.2.1⟩

/-- C10 witness: the self-loop theorem applied to a concrete one-element
ring. -/
theorem C10_removed_self_loop_witness :
    isRing heapA 1 [2] ∧
    ((q_remove_head heapA (some 1) false 4).2.1 = some 2 ∧
      (q_remove_head heapA (some 1) false 4).1.next 2 = 2 ∧
      (q_remove_head heapA (some 1) false 4).1.prev 2 = 2 ∧
      (2 : Nat) ∉ ([] : List Nat) ∧
      isRing (q_remove_head heapA (some 1) false 4).1 1 []) :=
  ⟨by decide,
    (C10_removed_self_loop heapA 1 [2] (by decide) false 4).1 2 [] rfl⟩
